import Mathlib

/-!
Verification of the rich-text layout engine (fabric.js-derived repository).

Shallow embedding conventions:
* JavaScript floating-point quantities (pixel widths, offsets) are modelled as
  rationals `ℚ`; `NaN` (which arises only from arithmetic on `undefined`) is
  modelled as `Option ℚ` with `none` standing for `NaN`.
* JavaScript strings are Lean `String`s; where surrogate-level structure
  matters (the grapheme segmenter) a string is a `List ℕ` of UTF-16 code units.
* The host `ctx.measureText` primitive is an opaque parameter
  `measureRef : String → String → ℚ` (font declaration, text) measuring at the
  reference font size `CACHE_FONT_SIZE` (a parameter `cfs`).
* The shared font measurement cache is a function
  `FCache : FKey → String → Option ℚ` from a font key and a string to a cached
  reference-size width.
-/

namespace TextEngine


/-- Source `FabricText._getWidthOfCharSpacing`:
`charSpacing !== 0 ? fontSize * charSpacing / 1000 : 0`. -/
def widthOfCharSpacing (fontSize charSpacing : ℚ) : ℚ :=
  if charSpacing ≠ 0 then fontSize * charSpacing / 1000 else 0

/-- Source `FabricText.measureLine` (public): takes the width computed by
`_measureLine` (the sum of the per-character kerned widths, supplied here as
the list `kws`), subtracts the char-spacing correction when `charSpacing ≠ 0`,
and clamps a negative result to `0`. -/
def measureLineWidth (kws : List ℚ) (fontSize charSpacing : ℚ) : ℚ :=
  let w := kws.sum - widthOfCharSpacing fontSize charSpacing
  if w < 0 then 0 else w

/-- The `_reSpaceAndTab` test (`/[ \t\r]/`, the value given for `_wordJoiners` in
the Textbox defaults): does the single grapheme match space, tab, or CR. -/
def isSpaceOrTab (g : String) : Bool :=
  g = " " ∨ g = "\t" ∨ g = "\r"

/-- The per-iteration state adjustment at the top of
`Textbox._generateStyleMap`'s loop: on a hard break consume the `'\n'` and
advance the logical line, on a wrap-trimmed space (word-granular mode only)
consume the space, else leave the state unchanged.  The state is
`(realLineCount, realLineCharCount, charCount)`; `first` is true on the first
iteration (`i = 0`, where both branches are skipped).  Out-of-range reads of
`graphemeText` (JS `undefined`) compare unequal to `'\n'` and fail the
whitespace test, which `List.getD _ _ ""` reproduces. -/
def styleMapStep (txt : List String) (sbg : Bool) (first : Bool)
    (st : ℕ × ℕ × ℕ) : ℕ × ℕ × ℕ :=
  if txt.getD st.2.2 "" = "\n" ∧ first = false then (st.1 + 1, 0, st.2.2 + 1)
  else if sbg = false ∧ isSpaceOrTab (txt.getD st.2.2 "") = true ∧ first = false then
    (st.1, st.2.1 + 1, st.2.2 + 1)
  else st

/-- The loop of `Textbox._generateStyleMap`, walking the visual
(`graphemeLines`) lines: each iteration applies `styleMapStep`, emits
`map[i] = { line, offset }`, then advances `charCount` and
`realLineCharCount` by the visual line's grapheme count. -/
def styleMapGo (txt : List String) (sbg : Bool) :
    List (List String) → Bool → ℕ × ℕ × ℕ → List (ℕ × ℕ)
  | [], _, _ => []
  | l :: ls, first, st =>
    let s2 := styleMapStep txt sbg first st
    (s2.1, s2.2.1) :: styleMapGo txt sbg ls false (s2.1, s2.2.1 + l.length, s2.2.2 + l.length)

/-- Source `Textbox._generateStyleMap`: entry `i` of the result is the
`{ line, offset }` record for visual line `i`.  `txt` is
`textInfo.graphemeText` (the flat grapheme sequence with `'\n'` separators)
and `lines` is `textInfo.graphemeLines` (the wrapped visual lines). -/
def generateStyleMap (txt : List String) (sbg : Bool) (lines : List (List String)) :
    List (ℕ × ℕ) :=
  styleMapGo txt sbg lines true (0, 0, 0)

/-- Relation between two successive style-map entries `a` and `b`, where `n`
is the grapheme count of the earlier visual line: logical line indices do not
decrease, and when both entries address the same logical line, the later
offset is the earlier offset plus the line length, plus at most one
wrap-trimmed separator (exactly the line length when splitting by grapheme). -/
def styleMapAdjacent (sbg : Bool) (a b : ℕ × ℕ) (n : ℕ) : Prop :=
  a.1 ≤ b.1 ∧
    (b.1 = a.1 →
      (b.2 = a.2 + n ∨ b.2 = a.2 + n + 1) ∧ (sbg = true → b.2 = a.2 + n))

/-! ## Hit testing (`ITextClickBehavior.getSelectionStartFromPointer`) -/

/-- The line-location loop of `getSelectionStartFromPointer`.  Each row is
`(heightOfLine i, prev)` where `prev` is
`some (textLines[i-1].length, missingNewlineOffset(i-1))` for `i > 0` and
`none` for `i = 0`.  State: accumulated `height`, accumulated `charIndex`,
chosen `lineIndex`, current loop index `i`; a row whose accumulated height
already exceeds the pointer's `y` breaks the loop. -/
def pickLineGo (y : ℚ) : List (ℚ × Option (ℕ × ℕ)) → ℚ → ℕ → ℕ → ℕ → ℕ × ℕ
  | [], _, ci, li, _ => (li, ci)
  | (h, prev) :: rest, height, ci, li, i =>
    if height ≤ y then
      let ci2 := match prev with
        | some (len, mis) => ci + len + mis
        | none => ci
      pickLineGo y rest (height + h) ci2 i (i + 1)
    else (li, ci)

/-- The character scan of `getSelectionStartFromPointer` over the chosen
line's bounding boxes (kerned widths `kws`): accumulate widths until the
pointer's `x` is reached; on the stopping box, move past it only when the
pointer is closer to its trailing edge. -/
def charScanGo (x : ℚ) : List ℚ → ℚ → ℕ → ℕ
  | [], _, ci => ci
  | kw :: rest, w, ci =>
    let wa := w + kw
    if x ≤ wa then (if |x - wa| ≤ |x - w| then ci + 1 else ci)
    else charScanGo x rest wa (ci + 1)

/-- Source `ITextClickBehavior.getSelectionStartFromPointer`, after the pointer
has been brought into the text's local coordinates (`x`, `y` are
`mouseOffset`).  `heights` are the per-line heights, `lens` the per-line
grapheme counts (`_textLines[i].length`), `mis` the per-line
`missingNewlineOffset` values, `leftOffsets` the `_getLineLeftOffset` values,
`charBounds` the per-line kerned widths of `__charBounds`, and `textLen` is
`_text.length`.  Returns the selection index, mirrored from the end of the
chosen line when `flipX` is set and clamped above by `textLen`. -/
def getSelectionStartFromPointer (x y : ℚ) (heights : List ℚ)
    (lens mis : List ℕ) (leftOffsets : List ℚ) (charBounds : List (List ℚ))
    (flipX : Bool) (textLen : ℕ) : ℤ :=
  let rows := heights.zip ((none : Option (ℕ × ℕ)) :: (lens.zip mis).map some)
  let pick := pickLineGo y rows 0 0 0 0
  let lineIndex := pick.1
  let lineLeftOffset := |leftOffsets.getD lineIndex 0|
  let charLength := lens.getD lineIndex 0
  let kwsRow := (charBounds.getD lineIndex []).take charLength
  let charIndex := charScanGo x kwsRow lineLeftOffset pick.2
  min (if flipX then (charLength : ℤ) - (charIndex : ℤ) else (charIndex : ℤ)) (textLen : ℤ)

/-! ## Path positioning (the path section of `FabricText._measureLine`) -/

/-- JavaScript's `%` on positive operands: `p - L * ⌊p / L⌋` (truncation and
floor agree for positive values, the only case the source reaches since the
`%` branch requires `p > L > 0`). -/
def jsMod (p L : ℚ) : ℚ := p - L * (⌊p / L⌋ : ℤ)

/-- The wrap applied to `positionInPath` before each character is positioned:
`if (positionInPath > totalPathLength) positionInPath %= totalPathLength;
else if (positionInPath < 0) positionInPath += totalPathLength;`. -/
def wrapPositionInPath (p L : ℚ) : ℚ :=
  if p > L then jsMod p L else if p < 0 then p + L else p

/-- The starting `positionInPath` of a line: the alignment `switch` of
`_measureLine` (`left`/`center`/`right`, anything else — e.g. `justify`,
marked TODO in the source — leaves `0`), then
`positionInPath += pathStartOffset * (reverse ? -1 : 1)`. -/
def startPositionInPath (textAlign : String) (reverse : Bool)
    (totalLength width pathStartOffset : ℚ) : ℚ :=
  (if textAlign = "left" then (if reverse then totalLength - width else 0)
   else if textAlign = "center" then (totalLength - width) / 2
   else if textAlign = "right" then (if reverse then 0 else totalLength - width)
   else 0) +
    pathStartOffset * (if reverse then -1 else 1)

/-- The per-character positioning loop of `_measureLine`'s path section, in
traversal order: each step wraps the running `positionInPath`, hands the
wrapped value to `_setGraphemeOnPath`, then advances by the character's
kerned width.  Returns the wrapped position used for each character. -/
def pathPositions (L : ℚ) : List ℚ → ℚ → List ℚ
  | [], _ => []
  | kw :: rest, p =>
    let q := wrapPositionInPath p L
    q :: pathPositions L rest (q + kw)

/-! ## Word wrapping (`OlpTextbox._wrapLine`; `Textbox._wrapLine` is the
same algorithm with the flush condition's `this.wrap` conjunct fixed to
`true` and without the `maxLineWidth` bookkeeping) -/

/-- The word-layout loop of `_wrapLine`.  `data` is
`wordsData[lineIndex]` (each word as its graphemes paired with its measured
width), and `measureInfixAt o` is `_measureWord([infix], lineIndex, o)`
(the word separator's width measured at offset `o`).  The state mirrors the
source locals: `lineWidth`, `line`, `offset`, `infixWidth`,
`lineJustStarted`; `acc` accumulates `graphemeLines`.  Returns
`(graphemeLines, line, lineWidth, lineJustStarted)` at loop exit. -/
def wrapLineGo (wrap sbg : Bool) (maxWidth additionalSpace : ℚ)
    (measureInfixAt : ℕ → ℚ) :
    List (List String × ℚ) → ℚ → List String → ℕ → ℚ → Bool →
      List (List String) → List (List String) × List String × ℚ × Bool
  | [], lw, line, _, _, ljs, acc => (acc, line, lw, ljs)
  | (word, wordWidth) :: rest, lw, line, off, iw, ljs, acc =>
    let off2 := off + word.length
    let lw2 := lw + iw + wordWidth - additionalSpace
    let st :=
      if lw2 > maxWidth ∧ ljs = false ∧ wrap = true then
        (acc ++ [line], ([] : List String), wordWidth, true)
      else (acc, line, lw2 + additionalSpace, ljs)
    let line3 := if st.2.2.2 = false ∧ sbg = false then st.2.1 ++ [" "] else st.2.1
    let iw2 := if sbg then 0 else measureInfixAt off2
    wrapLineGo wrap sbg maxWidth additionalSpace measureInfixAt rest
      st.2.2.1 (line3 ++ word) (off2 + 1) iw2 false st.1

/-- Source `OlpTextbox._wrapLine`: wraps one logical line's `wordsData` to
`maxWidth = max(desiredWidth − reservedSpace, largestWordWidth,
dynamicMinWidth)`; after the loop `i && graphemeLines.push(line)` pushes the
pending line when the word list was non-empty.  Returns the visual lines,
the final `lineWidth` (whose running maximum the caller records in
`maxLineWidth`), and the updated `dynamicMinWidth`. -/
def wrapLine (wrap sbg : Bool)
    (desiredWidth largestWordWidth dynamicMinWidth reservedSpace additionalSpace : ℚ)
    (measureInfixAt : ℕ → ℚ) (data : List (List String × ℚ)) :
    List (List String) × ℚ × ℚ :=
  let maxWidth := max (desiredWidth - reservedSpace) (max largestWordWidth dynamicMinWidth)
  let r := wrapLineGo wrap sbg maxWidth additionalSpace measureInfixAt data 0 [] 0 0 true []
  let lines := if data.length ≠ 0 then r.1 ++ [r.2.1] else r.1
  let dyn2 :=
    if largestWordWidth + reservedSpace > dynamicMinWidth then
      largestWordWidth - additionalSpace + reservedSpace
    else dynamicMinWidth
  (lines, r.2.2.1, dyn2)

/-- Source `OlpTextbox.initDimensions`, the width update: with `wrap` the width follows
the group's scaled width minus the text-body insets (unchanged without a
group); without `wrap`, a truthy width is replaced by
`max(dynamicMinWidth, maxLineWidth)` only when it exceeds `maxLineWidth`,
and a zero (falsy) width is always so replaced. -/
def olpInitWidth (wrap : Bool) (group : Option (ℚ × ℚ))
    (width dynamicMinWidth maxLineWidth textBodyLIns textBodyRIns : ℚ) : ℚ :=
  if wrap = true then
    match group with
    | some gs => gs.1 * gs.2 - textBodyLIns - textBodyRIns
    | none => width
  else
    if width ≠ 0 then
      if width > maxLineWidth then max dynamicMinWidth maxLineWidth else width
    else max dynamicMinWidth maxLineWidth

/-! ## Justification (`FabricText.enlargeSpaces`) -/

/-- Per-character grapheme bounding box (`GraphemeBBox`). -/
structure GBox where
  left : ℚ
  width : ℚ
  kernedWidth : ℚ
  height : ℚ
  deltaY : ℚ
  deriving DecidableEq, Inhabited

/-- Modelled from the spec: `_reSpacesAndTabs`, the regex whose matches give
`numberOfSpaces`, is only *declared* in the provided sources (its value is
assigned outside them); the spec says "count whitespace characters", so the
count is the number of whitespace graphemes in the line. -/
def countSpaces (line : List String) : ℕ :=
  (line.filter isSpaceOrTab).length

/-- The whitespace test on a possibly-absent grapheme: `line[j]` is
`undefined` (here `none`) at `j = line.length`, where the test fails. -/
def isSpaceOpt : Option String → Bool
  | some s => isSpaceOrTab s
  | none => false

/-- The per-`j` grapheme/box pair seen by `enlargeSpaces`' inner loop. -/
def isSpacePair (p : Option String × GBox) : Bool :=
  isSpaceOpt p.1

/-- One iteration of `enlargeSpaces`' inner loop on box `p.2` with pending
accumulated space `a`: a whitespace box grows by `diff` in `width` and
`kernedWidth` and shifts `left` by `a`; any other box only shifts `left`. -/
def enlargeStep (diff : ℚ) (p : Option String × GBox) (a : ℚ) : GBox :=
  if isSpacePair p then
    { p.2 with
        width := p.2.width + diff
        kernedWidth := p.2.kernedWidth + diff
        left := p.2.left + a }
  else { p.2 with left := p.2.left + a }

/-- The inner loop of `enlargeSpaces` over one line: apply `enlargeStep` to
each grapheme/box pair, growing the accumulated space after each whitespace
box. -/
def enlargeLineGo (diff : ℚ) : List (Option String × GBox) → ℚ → List GBox
  | [], _ => []
  | p :: rest, accSpace =>
    enlargeStep diff p accSpace ::
      enlargeLineGo diff rest (accSpace + if isSpacePair p then diff else 0)

/-- One line's pass of `FabricText.enlargeSpaces`: `boxes` is the line's
`__charBounds` row (per-character boxes plus the trailing sentinel, so the
loop over `j ≤ line.length` pairs `boxes[j]` with `line[j]`, modelled by
zipping the graphemes extended with `none`); `currentLineWidth` is
`getLineWidth` (the cached `measureLine` width of the character boxes).  When
the line is narrower than the container and holds whitespace, boxes are
stretched by `diffSpace = (width − currentLineWidth) / numberOfSpaces`;
otherwise the boxes are untouched. -/
def enlargeLine (line : List String) (boxes : List GBox)
    (containerWidth fontSize charSpacing : ℚ) : List GBox :=
  let currentLineWidth :=
    measureLineWidth ((boxes.take line.length).map (·.kernedWidth)) fontSize charSpacing
  let numberOfSpaces := countSpaces line
  if currentLineWidth < containerWidth ∧ numberOfSpaces ≠ 0 then
    let diff := (containerWidth - currentLineWidth) / (numberOfSpaces : ℚ)
    enlargeLineGo diff ((line.map some ++ [none]).zip boxes) 0
  else boxes

/-! ## Grapheme segmentation (`graphemeSplit` / `getWholeChar`)

A JavaScript string is modelled as its list of UTF-16 code units
(`List ℕ`); `charCodeAt` out of range (`NaN`) is `none`, and NaN-valued
comparisons are false. -/

def isHighSurrogate (c : ℕ) : Bool := 0xd800 ≤ c ∧ c ≤ 0xdbff

def isLowSurrogate (c : ℕ) : Bool := 0xdc00 ≤ c ∧ c ≤ 0xdfff

/-- Source `getWholeChar(str, i)`: `.ok (some g)` returns the grapheme's code
units (the empty string for an out-of-range position), `.ok none` is the
`false` "skip" result for the low half of a processed pair, `.error`
models the thrown segmentation errors. -/
def getWholeChar (str : List ℕ) (i : ℕ) : Except String (Option (List ℕ)) :=
  match str[i]? with
  | none => .ok (some [])
  | some code =>
    if code < 0xd800 ∨ 0xdfff < code then .ok (some [code])
    else if code ≤ 0xdbff then
      -- high surrogate: demand a following low surrogate
      match str[i + 1]? with
      | none => .error "High surrogate without following low surrogate"
      | some next =>
        if next < 0xdc00 ∨ 0xdfff < next then
          .error "High surrogate without following low surrogate"
        else .ok (some [code, next])
    else
      -- low surrogate: demand a preceding high surrogate
      if i = 0 then .error "Low surrogate without preceding high surrogate"
      else
        match str[i - 1]? with
        | none => .ok none
        | some prev =>
          if prev < 0xd800 ∨ 0xdbff < prev then
            .error "Low surrogate without preceding high surrogate"
          else .ok none

/-- The loop of `graphemeSplit` over the positions `idxs`: skip a `false`
result, push a grapheme, propagate an error. -/
def graphemeSplitGo (str : List ℕ) : List ℕ → Except String (List (List ℕ))
  | [] => .ok []
  | i :: rest =>
    match getWholeChar str i with
    | .error e => .error e
    | .ok none => graphemeSplitGo str rest
    | .ok (some g) => (graphemeSplitGo str rest).map (g :: ·)

/-- Source `graphemeSplit`: scan every position of the string. -/
def graphemeSplit (str : List ℕ) : Except String (List (List ℕ)) :=
  graphemeSplitGo str (List.range str.length)

/-- Well-formedness of a UTF-16 code-unit sequence: every high surrogate is
immediately followed by a low surrogate, and no low surrogate appears
unpaired.  `wellFormed s = false` exactly when `s` contains an unpaired high
surrogate at end-of-string or not followed by a low surrogate, or an
unpaired low surrogate at position 0 or not preceded by a high surrogate. -/
def wellFormed : List ℕ → Bool
  | [] => true
  | c :: rest =>
    if isHighSurrogate c then
      match rest with
      | [] => false
      | d :: rest2 => isLowSurrogate d && wellFormed rest2
    else !(isLowSurrogate c) && wellFormed rest

/-- The reference segmentation of a well-formed sequence: a surrogate pair
becomes one two-unit grapheme, any other unit its own grapheme. -/
def segSpec : List ℕ → List (List ℕ)
  | [] => []
  | c :: rest =>
    if isHighSurrogate c then
      match rest with
      | [] => [[c]]
      | d :: rest2 => [c, d] :: segSpec rest2
    else [c] :: segSpec rest

/-! ## Character measurement (`FabricText._measureChar`)

`mRef decl text` is the opaque host `ctx.measureText` primitive under font
declaration `decl` (always the measuring declaration, at the reference size
`CACHE_FONT_SIZE = cfs`).  Modelled from the spec for the part outside the
provided sources: the font measurement cache (`cache.getFontCache`) is "keyed
by a serialized font declaration" — here the `(fontFamily, fontStyle,
fontWeight)` triple, which determines the measuring declaration. -/

/-- The character style fields that `_getFontDeclaration` and `_measureChar`
read (`CompleteTextStyleDeclaration`, restricted to the font fields plus
`deltaY`). -/
structure TStyle where
  fontFamily : String
  fontStyle : String
  fontWeight : String
  fontSize : ℚ
  deltaY : ℚ
  deriving DecidableEq, Inhabited

/-- Source `FabricText.genericFonts`. -/
def genericFonts : List String :=
  ["serif", "sans-serif", "monospace", "cursive", "fantasy", "system-ui",
    "ui-serif", "ui-sans-serif", "ui-monospace", "ui-rounded", "math",
    "emoji", "fangsong"]

/-- The `parsedFontFamily` computation of `_getFontDeclaration`: a family
containing a quote or comma, or a generic family name, is used verbatim;
anything else is wrapped in double quotes.  (39, 34, 44 are the code points
of the single quote, double quote, and comma.) -/
def parsedFontFamily (fontFamily : String) : String :=
  if fontFamily.any (fun ch =>
        ch == Char.ofNat 39 || ch == Char.ofNat 34 || ch == Char.ofNat 44) ||
      genericFonts.contains fontFamily.toLower then
    fontFamily
  else "\"" ++ fontFamily ++ "\""

/-- Source `FabricText._getFontDeclaration`: `[fontStyle, fontWeight,
'<size>px', parsedFontFamily].join(' ')`, with the reference size
`CACHE_FONT_SIZE` substituted when `forMeasuring` is set. -/
def fontDeclaration (cfs : ℚ) (s : TStyle) (forMeasuring : Bool) : String :=
  String.intercalate " "
    [s.fontStyle, s.fontWeight,
      toString (if forMeasuring then cfs else s.fontSize) ++ "px",
      parsedFontFamily s.fontFamily]

/-- Key of the per-font width cache. -/
def FKey : Type := String × String × String

instance : DecidableEq FKey := by unfold FKey; infer_instance

/-- The key of `cache.getFontCache(charStyle)`. -/
def fontCacheKey (s : TStyle) : FKey := (s.fontFamily, s.fontStyle, s.fontWeight)

/-- The measuring font declaration determined by a cache key (the same
`fontStyle fontWeight <cfs>px parsedFamily` string `_setTextStyles` installs
before measuring). -/
def measuringDeclOfKey (cfs : ℚ) (k : FKey) : String :=
  String.intercalate " "
    [k.2.1, k.2.2, toString cfs ++ "px", parsedFontFamily k.1]

/-- The shared font measurement cache: per font key, per measured string. -/
def FCache : Type := FKey → String → Option ℚ

/-- The cache write `fontCache[str] = v`. -/
def updateFCache (c : FCache) (k : FKey) (s : String) (v : ℚ) : FCache :=
  fun k2 s2 => if k2 = k ∧ s2 = s then some v else c k2 s2

/-- Source `FabricText._measureChar`, cache and all.  The result pairs
`{width, kernedWidth}` (in `kernedWidth`, `none` models the `NaN` produced by
arithmetic on `undefined`) with the updated cache.  `couple` is modelled as
`pC ++ ch` (the JS `previousChar + _char` would be `"undefined" + _char` for
an absent previous char, but every use of `couple` is guarded by
`stylesAreEqual`, which requires a truthy previous char). -/
def measureChar (mRef : String → String → ℚ) (cfs : ℚ) (ch : String)
    (charStyle : TStyle) (previousChar : Option String) (prevStyle : TStyle)
    (c : FCache) : (ℚ × Option ℚ) × FCache :=
  let k := fontCacheKey charStyle
  let mDecl := fontDeclaration cfs charStyle true
  let pC := previousChar.getD ""
  let couple := pC ++ ch
  let stylesAreEqual : Bool :=
    (pC != "") &&
      (fontDeclaration cfs charStyle false == fontDeclaration cfs prevStyle false)
  let previousWidth0 : Option ℚ := if pC != "" then c k pC else none
  let width0 : Option ℚ := c k ch
  let coupleWidth0 : Option ℚ := if stylesAreEqual then c k couple else none
  let kerned0 : Option ℚ :=
    match coupleWidth0, previousWidth0 with
    | some cw, some pw => some (cw - pw)
    | some _, none => none
    | none, _ => width0
  let step1 : ℚ × Option ℚ × FCache :=
    match width0 with
    | some w => (w, kerned0, c)
    | none =>
        let w := mRef mDecl ch
        (w, some w, updateFCache c k ch w)
  let step2 : Option ℚ × FCache :=
    if previousWidth0 = none ∧ stylesAreEqual = true then
      let pw := mRef mDecl pC
      (some pw, updateFCache step1.2.2 k pC pw)
    else (previousWidth0, step1.2.2)
  let step3 : Option ℚ × FCache :=
    if stylesAreEqual = true ∧ coupleWidth0 = none then
      let cw := mRef mDecl couple
      ((match step2.1 with
        | some pw => some (cw - pw)
        | none => none), updateFCache step2.2 k couple cw)
    else (step1.2.1, step2.2)
  let fontMultiplier := charStyle.fontSize / cfs
  ((step1.1 * fontMultiplier, step3.1.map (· * fontMultiplier)), step3.2)

/-- The cache-independent specification of `_measureChar`: the reference-size
measurement scaled by `fontSize / CACHE_FONT_SIZE`, and kerning inferred from
the couple measurement when the resolved font declarations agree. -/
def measureCharSpec (mRef : String → String → ℚ) (cfs : ℚ) (ch : String)
    (charStyle : TStyle) (previousChar : Option String) (prevStyle : TStyle) :
    ℚ × ℚ :=
  let mDecl := fontDeclaration cfs charStyle true
  let pC := previousChar.getD ""
  let fontMultiplier := charStyle.fontSize / cfs
  let stylesAreEqual : Bool :=
    (pC != "") &&
      (fontDeclaration cfs charStyle false == fontDeclaration cfs prevStyle false)
  (mRef mDecl ch * fontMultiplier,
    if stylesAreEqual then (mRef mDecl (pC ++ ch) - mRef mDecl pC) * fontMultiplier
    else mRef mDecl ch * fontMultiplier)

/-- A well-formed cache: every entry is the reference measurement of its key
(entries are only ever written with measured values), and the two closure
properties of the program's write pattern — a cached kerning couple implies
its previous-grapheme entry and its single-grapheme entry are cached too
(`_measureChar` always caches those before or together with the couple). -/
def cacheWF (mRef : String → String → ℚ) (cfs : ℚ) (c : FCache) : Prop :=
  ∀ (k : FKey) (str : String) (w : ℚ),
    c k str = some w → w = mRef (measuringDeclOfKey cfs k) str

/-! ## Per-line bounding boxes (`FabricText._getGraphemeBox` /
`_measureLine`'s box-building loop)

`_measureChar` is used through its cache-independent specification
`measureCharSpec`, justified by `measureChar_eq_spec`: under the program's
cache invariant the stateful `_measureChar` returns exactly these values. -/

/-- Source `FabricText._getGraphemeBox`.  `styles` resolves
`getCompleteStyleDeclaration(lineIndex, ·)`; the `prevStyle` argument
`styles (charIndex - 1)` is only read when `prevGrapheme` is present (the
JS passes `{}` otherwise, which `_measureChar` then never consults since
`stylesAreEqual` is false). -/
def getGraphemeBox (mRef : String → String → ℚ) (cfs : ℚ) (styles : ℕ → TStyle)
    (fontSize charSpacing : ℚ) (grapheme : String) (charIndex : ℕ)
    (prevGrapheme : Option String) (skipLeft : Bool) (prevBox : Option GBox) :
    GBox :=
  let style := styles charIndex
  let prevStyle := styles (charIndex - 1)
  let info := measureCharSpec mRef cfs grapheme style prevGrapheme prevStyle
  let cs := widthOfCharSpacing fontSize charSpacing
  let width := info.1 + cs
  let kernedWidth := info.2 + cs
  let left :=
    if charIndex > 0 ∧ skipLeft = false then
      match prevBox with
      | some pb => pb.left + pb.width + info.2 - info.1
      | none => 0
    else 0
  { left := left, width := width, kernedWidth := kernedWidth,
    height := style.fontSize, deltaY := style.deltaY }

/-- The box-building recurrence of `_measureLine`'s loop: box `i` is built by
`_getGraphemeBox` with grapheme `i-1` as kerning context and box `i-1` as the
previous box. -/
def charBoxAt (mRef : String → String → ℚ) (cfs : ℚ) (styles : ℕ → TStyle)
    (fontSize charSpacing : ℚ) (line : List String) : ℕ → GBox
  | 0 => getGraphemeBox mRef cfs styles fontSize charSpacing
      (line.getD 0 "") 0 none false none
  | i + 1 => getGraphemeBox mRef cfs styles fontSize charSpacing
      (line.getD (i + 1) "") (i + 1) (some (line.getD i "")) false
      (some (charBoxAt mRef cfs styles fontSize charSpacing line i))

/-- The `_measureChar` result feeding box `i`. -/
def infoAt (mRef : String → String → ℚ) (cfs : ℚ) (styles : ℕ → TStyle)
    (line : List String) : ℕ → ℚ × ℚ
  | 0 => measureCharSpec mRef cfs (line.getD 0 "") (styles 0) none (styles 0)
  | i + 1 => measureCharSpec mRef cfs (line.getD (i + 1) "") (styles (i + 1))
      (some (line.getD i "")) (styles i)

/-- The `__charBounds` row built by `_measureLine`: one box per grapheme
followed by the zero-width sentinel box at `left + width` of the last box
(`left = 0` for an empty line). -/
def lineBoxes (mRef : String → String → ℚ) (cfs : ℚ) (styles : ℕ → TStyle)
    (fontSize charSpacing : ℚ) (line : List String) : List GBox :=
  let chars := (List.range line.length).map
    (charBoxAt mRef cfs styles fontSize charSpacing line)
  let sentinel : GBox :=
    match line.length with
    | 0 => { left := 0, width := 0, kernedWidth := 0, height := fontSize, deltaY := 0 }
    | n + 1 =>
        let last := charBoxAt mRef cfs styles fontSize charSpacing line n
        { left := last.left + last.width, width := 0, kernedWidth := 0,
          height := fontSize, deltaY := 0 }
  chars ++ [sentinel]

/-- C10: the public `measureLine` operation returns a non-negative width for
every line: after subtracting the character-spacing correction from the summed
kerned widths, a negative result is clamped to `0`. -/
theorem measureLine_nonneg (kws : List ℚ) (fontSize charSpacing : ℚ) :
    0 ≤ measureLineWidth kws fontSize charSpacing := by
  unfold measureLineWidth
  dsimp only
  split
  · exact le_refl 0
  · exact le_of_not_lt (by assumption)

theorem styleMapStep_cases (txt : List String) (sbg : Bool) (st : ℕ × ℕ × ℕ) :
    (styleMapStep txt sbg false st).1 = st.1 + 1 ∧ (styleMapStep txt sbg false st).2.1 = 0 ∨
      sbg = false ∧ (styleMapStep txt sbg false st).1 = st.1 ∧
        (styleMapStep txt sbg false st).2.1 = st.2.1 + 1 ∨
      (styleMapStep txt sbg false st).1 = st.1 ∧
        (styleMapStep txt sbg false st).2.1 = st.2.1 := by
  unfold styleMapStep
  split
  · exact Or.inl ⟨rfl, rfl⟩
  · split
    · next hc => exact Or.inr (Or.inl ⟨hc.1, rfl, rfl⟩)
    · exact Or.inr (Or.inr ⟨rfl, rfl⟩)

theorem styleMapGo_adjacent (txt : List String) (sbg : Bool) :
    ∀ (lines : List (List String)) (first : Bool) (st : ℕ × ℕ × ℕ) (i : ℕ),
      i + 1 < lines.length →
      styleMapAdjacent sbg
        ((styleMapGo txt sbg lines first st).getD i (0, 0))
        ((styleMapGo txt sbg lines first st).getD (i + 1) (0, 0))
        (lines.getD i []).length := by
  intro lines
  induction lines with
  | nil => intro first st i h; simp at h
  | cons l ls ih =>
      intro first st i h
      cases i with
      | succ j =>
          have hj : j + 1 < ls.length := by
            simpa using Nat.lt_of_succ_lt_succ h
          simpa [styleMapGo] using ih false _ j hj
      | zero =>
          cases ls with
          | nil => simp at h
          | cons l2 ls2 =>
              -- the entry for the head line, then the head entry of the tail call
              simp only [styleMapGo, List.getD_cons_zero, List.getD_cons_succ]
              set s2 := styleMapStep txt sbg first st with hs2
              set st2 : ℕ × ℕ × ℕ := (s2.1, s2.2.1 + l.length, s2.2.2 + l.length) with hst2
              have hcases := styleMapStep_cases txt sbg st2
              constructor
              · rcases hcases with ⟨h1, _⟩ | ⟨_, h1, _⟩ | ⟨h1, _⟩ <;>
                  simp only [h1, hst2] <;> omega
              · intro hline
                rcases hcases with ⟨h1, h2⟩ | ⟨hsbg, h1, h2⟩ | ⟨h1, h2⟩
                · exfalso
                  rw [h1] at hline
                  simp only [hst2] at hline
                  omega
                · refine ⟨Or.inr ?_, ?_⟩
                  · rw [h2]
                  · intro hT; rw [hT] at hsbg; cases hsbg
                · exact ⟨Or.inl (by rw [h2]), fun _ => by rw [h2]⟩

/-- C3: in the style map built by `_generateStyleMap`, logical line indices
are monotonically non-decreasing as the visual line index increases, and when
two successive visual lines map to the same logical line, the later entry's
offset equals the earlier offset plus the earlier line's grapheme count, plus
at most one wrap-trimmed separator (and exactly the grapheme count in
split-by-grapheme mode): the spans partition the logical line's range without
gaps or overlaps. -/
theorem generateStyleMap_adjacent (txt : List String) (sbg : Bool)
    (lines : List (List String)) (i : ℕ) (h : i + 1 < lines.length) :
    styleMapAdjacent sbg
      ((generateStyleMap txt sbg lines).getD i (0, 0))
      ((generateStyleMap txt sbg lines).getD (i + 1) (0, 0))
      (lines.getD i []).length :=
  styleMapGo_adjacent txt sbg lines true (0, 0, 0) i h

/-- Witness for C3 at a concrete input: text `"ab cd"` wrapped as
`["ab", "cd"]` (the separating space trimmed at the wrap point). -/
theorem generateStyleMap_adjacent_witness :
    0 + 1 < ([["a", "b"], ["c", "d"]] : List (List String)).length ∧
      styleMapAdjacent false
        ((generateStyleMap ["a", "b", " ", "c", "d"] false [["a", "b"], ["c", "d"]]).getD 0 (0, 0))
        ((generateStyleMap ["a", "b", " ", "c", "d"] false [["a", "b"], ["c", "d"]]).getD 1 (0, 0))
        (([["a", "b"], ["c", "d"]] : List (List String)).getD 0 []).length :=
  ⟨by decide,
    generateStyleMap_adjacent ["a", "b", " ", "c", "d"] false [["a", "b"], ["c", "d"]] 0
      (by decide)⟩

/-- C7 (amended): hit testing never exceeds the total grapheme count, and when
the text is not mirrored the result is also non-negative, for every pointer
position and every layout; the unmirrored result therefore lies in
`[0, totalGraphemeCount]`.  (With `flipX` and a pointer past the first line,
the mirrored index `lineLength − charIndex` can drop below `0`; see the
counterexample theorem.) -/
theorem getSelectionStartFromPointer_range (x y : ℚ) (heights : List ℚ)
    (lens mis : List ℕ) (leftOffsets : List ℚ) (charBounds : List (List ℚ))
    (flipX : Bool) (textLen : ℕ) :
    getSelectionStartFromPointer x y heights lens mis leftOffsets charBounds flipX textLen ≤
        (textLen : ℤ) ∧
      (flipX = false →
        0 ≤ getSelectionStartFromPointer x y heights lens mis leftOffsets charBounds
              flipX textLen) := by
  constructor
  · exact min_le_right _ _
  · intro hflip
    subst hflip
    unfold getSelectionStartFromPointer
    simp only [if_neg (by simp : ¬ (false = true))]
    exact le_min (Int.ofNat_nonneg _) (Int.ofNat_nonneg _)

/-- Witness for C7's amended theorem at a concrete unmirrored layout. -/
theorem getSelectionStartFromPointer_range_witness :
    getSelectionStartFromPointer 0 15 [10, 10] [2, 2] [1, 1] [0, 0]
          [[5, 5, 0], [5, 5, 0]] false 5 ≤ (5 : ℤ) ∧
      (false = false →
        0 ≤ getSelectionStartFromPointer 0 15 [10, 10] [2, 2] [1, 1] [0, 0]
              [[5, 5, 0], [5, 5, 0]] false 5) :=
  getSelectionStartFromPointer_range 0 15 [10, 10] [2, 2] [1, 1] [0, 0]
    [[5, 5, 0], [5, 5, 0]] false 5

/-- C7 counterexample: for the two-line text `"ab\ncd"` (5 graphemes), line
heights 10, equal kerned widths 5, with `flipX = true` and the pointer at
`(0, 15)` (on the second line), the code returns `-1`, outside
`[0, totalGraphemeCount]`: the mirrored index is `charLength − charIndex`
where `charIndex` still includes the previous line's characters. -/
theorem getSelectionStartFromPointer_flipX_negative :
    getSelectionStartFromPointer 0 15 [10, 10] [2, 2] [1, 1] [0, 0]
        [[5, 5, 0], [5, 5, 0]] true 5 = (-1 : ℤ) ∧
      ¬ (0 ≤ getSelectionStartFromPointer 0 15 [10, 10] [2, 2] [1, 1] [0, 0]
            [[5, 5, 0], [5, 5, 0]] true 5) := by
  constructor
  · norm_num [getSelectionStartFromPointer, pickLineGo, charScanGo]
  · norm_num [getSelectionStartFromPointer, pickLineGo, charScanGo]

/-- C8: the cumulative position along the path is wrapped, never clamped and
never an error: a position is produced for every character (totality), a
negative position wraps by adding the total length, a position beyond the end
wraps by taking the remainder, and in the spec's scenario (`totalLength =
100`, line width `150`, center alignment, zero path-start offset) the first
character's starting offset `−25` wraps to `75`. -/
theorem pathPositions_wrap :
    (∀ (L : ℚ) (kws : List ℚ) (p : ℚ),
        (pathPositions L kws p).length = kws.length) ∧
      (∀ p L : ℚ, p < 0 → 0 < L → wrapPositionInPath p L = p + L) ∧
      (∀ p L : ℚ, p > L → wrapPositionInPath p L = jsMod p L) ∧
      startPositionInPath "center" false 100 150 0 = -25 ∧
      pathPositions 100 [150] (startPositionInPath "center" false 100 150 0) = [75] := by
  have hstart : startPositionInPath "center" false 100 150 0 = -25 := by
    unfold startPositionInPath
    rw [if_neg (by decide), if_pos rfl]
    norm_num
  refine ⟨?_, ?_, ?_, hstart, ?_⟩
  · intro L kws
    induction kws with
    | nil => intro p; rfl
    | cons kw rest ih => intro p; simp [pathPositions, ih]
  · intro p L hp hL
    unfold wrapPositionInPath
    rw [if_neg (by linarith), if_pos hp]
  · intro p L hp
    unfold wrapPositionInPath
    rw [if_pos hp]
  · rw [hstart]
    norm_num [pathPositions, wrapPositionInPath]

/-- Witness for C8 at concrete inputs: a concrete instance of each
hypothesis-bearing conjunct of the theorem. -/
theorem pathPositions_wrap_witness :
    wrapPositionInPath (-25) 100 = (-25 : ℚ) + 100 ∧
      wrapPositionInPath 250 100 = jsMod 250 100 :=
  ⟨pathPositions_wrap.2.1 (-25) 100 (by norm_num) (by norm_num),
    pathPositions_wrap.2.2.1 250 100 (by norm_num)⟩

theorem wrapLineGo_nonempty (wrap sbg : Bool) (maxWidth additionalSpace : ℚ)
    (measureInfixAt : ℕ → ℚ) :
    ∀ (data : List (List String × ℚ)) (lw : ℚ) (line : List String) (off : ℕ)
      (iw : ℚ) (ljs : Bool) (acc : List (List String)),
      (∀ p ∈ data, p.1 ≠ []) → (∀ l ∈ acc, l ≠ []) → (ljs = false → line ≠ []) →
      (∀ l ∈ (wrapLineGo wrap sbg maxWidth additionalSpace measureInfixAt data
          lw line off iw ljs acc).1, l ≠ []) ∧
        ((wrapLineGo wrap sbg maxWidth additionalSpace measureInfixAt data
            lw line off iw ljs acc).2.2.2 = false →
          (wrapLineGo wrap sbg maxWidth additionalSpace measureInfixAt data
            lw line off iw ljs acc).2.1 ≠ []) := by
  intro data
  induction data with
  | nil =>
      intro lw line off iw ljs acc _ hacc hline
      exact ⟨hacc, hline⟩
  | cons wp rest ih =>
      intro lw line off iw ljs acc hdata hacc hline
      obtain ⟨word, wordWidth⟩ := wp
      have hword : word ≠ [] := hdata (word, wordWidth) (List.mem_cons_self _ _)
      have hrest : ∀ p ∈ rest, p.1 ≠ [] := fun p hp => hdata p (List.mem_cons_of_mem _ hp)
      simp only [wrapLineGo]
      split
      · -- flush: the pushed line is non-empty because lineJustStarted was false
        next hcond =>
          refine ih _ _ _ _ _ _ hrest ?_ ?_
          · intro l hl
            rcases List.mem_append.mp hl with hl | hl
            · exact hacc l hl
            · rw [List.mem_singleton.mp hl]; exact hline hcond.2.1
          · intro _
            simp [hword]
      · -- no flush: the word is appended to the running line
        refine ih _ _ _ _ _ _ hrest hacc ?_
        intro _
        simp [hword]

theorem wrapLineGo_ljs_false (wrap sbg : Bool) (maxWidth additionalSpace : ℚ)
    (measureInfixAt : ℕ → ℚ) :
    ∀ (data : List (List String × ℚ)) (lw : ℚ) (line : List String) (off : ℕ)
      (iw : ℚ) (acc : List (List String)),
      (wrapLineGo wrap sbg maxWidth additionalSpace measureInfixAt data
        lw line off iw false acc).2.2.2 = false := by
  intro data
  induction data with
  | nil => intro lw line off iw acc; rfl
  | cons wp rest ih =>
      intro lw line off iw acc
      obtain ⟨word, wordWidth⟩ := wp
      simp only [wrapLineGo]
      split <;> exact ih _ _ _ _ _

/-- C2 (amended): the flush happens only when `lineJustStarted` is false, so
when every word of the logical line is non-empty (always the case in
split-by-grapheme mode) every produced visual line holds at least one
grapheme; and a logical line consisting of a single word — in particular a
word wider than the desired width — always becomes exactly one visual line
holding that word alone.  (When word splitting produces *empty* words, from
leading/trailing/consecutive separators, a flushed visual line can be empty;
see the counterexample theorem.) -/
theorem wrapLine_nonempty_lines :
    (∀ (wrap sbg : Bool) (dw lww dyn rs as : ℚ) (mi : ℕ → ℚ)
        (data : List (List String × ℚ)), (∀ p ∈ data, p.1 ≠ []) →
        ∀ l ∈ (wrapLine wrap sbg dw lww dyn rs as mi data).1, l ≠ []) ∧
      (∀ (wrap sbg : Bool) (dw lww dyn rs as ww : ℚ) (mi : ℕ → ℚ)
          (word : List String),
        (wrapLine wrap sbg dw lww dyn rs as mi [(word, ww)]).1 = [word]) := by
  constructor
  · intro wrap sbg dw lww dyn rs as mi data hdata l hl
    unfold wrapLine at hl
    dsimp only at hl
    rcases data with _ | ⟨wp, rest⟩
    · simp [wrapLineGo] at hl
    · have h := wrapLineGo_nonempty wrap sbg
        (max (dw - rs) (max lww dyn)) as mi (wp :: rest) 0 [] 0 0 true []
        hdata (by simp) (by simp)
      have hljs := wrapLineGo_ljs_false wrap sbg
        (max (dw - rs) (max lww dyn)) as mi
      rw [if_pos (by simp)] at hl
      rcases List.mem_append.mp hl with hl | hl
      · exact h.1 l hl
      · rw [List.mem_singleton.mp hl]
        -- the final pending line: lineJustStarted is false after ≥ 1 word
        obtain ⟨word, wordWidth⟩ := wp
        refine h.2 ?_
        simp only [wrapLineGo]
        split <;> exact hljs _ _ _ _ _ _
  · intro wrap sbg dw lww dyn rs as ww mi word
    unfold wrapLine
    dsimp only
    rw [if_pos (by simp)]
    simp only [wrapLineGo]
    rw [if_neg (by simp)]
    simp

/-- Witness for C2's amended theorem at concrete inputs. -/
theorem wrapLine_nonempty_lines_witness :
    (∀ l ∈ (wrapLine true false 2 10 0 0 0 (fun _ => 5)
        [(["w"], 10), (["x"], 10)]).1, l ≠ []) ∧
      (wrapLine true false 2 10 0 0 0 (fun _ => 5) [(["w"], 10)]).1 = [["w"]] :=
  ⟨wrapLine_nonempty_lines.1 true false 2 10 0 0 0 (fun _ => 5)
      [(["w"], 10), (["x"], 10)]
      (by
        intro p hp
        simp only [List.mem_cons, List.not_mem_nil, or_false] at hp
        rcases hp with rfl | rfl <;> simp),
    wrapLine_nonempty_lines.2 true false 2 10 0 0 0 10 (fun _ => 5) ["w"]⟩

/-- C2 counterexample: the logical line `" "` (a single space) word-splits
into two *empty* words; with a desired width of `2` smaller than the measured
space width `5`, `_wrapLine` flushes an empty visual line and returns two
empty visual lines for this non-empty logical line — the produced visual
lines do not all contain a grapheme. -/
theorem wrapLine_empty_visual_line :
    (wrapLine true false 2 0 0 0 0 (fun _ => 5) [([], 0), ([], 0)]).1 = [[], []] ∧
      [] ∈ (wrapLine true false 2 0 0 0 0 (fun _ => 5) [([], 0), ([], 0)]).1 := by
  have h : (wrapLine true false 2 0 0 0 0 (fun _ => 5) [([], 0), ([], 0)]).1 = [[], []] := by
    norm_num [wrapLine, wrapLineGo]
  exact ⟨h, by rw [h]; simp⟩

theorem wrapLineGo_noflush_acc (sbg : Bool) (maxWidth additionalSpace : ℚ)
    (measureInfixAt : ℕ → ℚ) :
    ∀ (data : List (List String × ℚ)) (lw : ℚ) (line : List String) (off : ℕ)
      (iw : ℚ) (ljs : Bool) (acc : List (List String)),
      (wrapLineGo false sbg maxWidth additionalSpace measureInfixAt data
          lw line off iw ljs acc).1 = acc := by
  intro data
  induction data with
  | nil => intro lw line off iw ljs acc; rfl
  | cons wp rest ih =>
      intro lw line off iw ljs acc
      obtain ⟨word, wordWidth⟩ := wp
      simp only [wrapLineGo]
      rw [if_neg (by simp)]
      exact ih _ _ _ _ _ _

/-- C1 (amended): with `wrap = false` the flush test is skipped entirely, so
`_wrapLine` yields exactly one visual line per logical line (the word data of
a logical line is never empty); `initDimensions` then *clamps the width down*
to the widest produced line: a non-zero width not exceeding `maxLineWidth`
is left unchanged (it may remain smaller than the widest line), and a zero
width or one exceeding `maxLineWidth` becomes
`max(dynamicMinWidth, maxLineWidth)`. -/
theorem wrapLine_nowrap_single_line :
    (∀ (sbg : Bool) (dw lww dyn rs as : ℚ) (mi : ℕ → ℚ)
        (data : List (List String × ℚ)), data ≠ [] →
        ((wrapLine false sbg dw lww dyn rs as mi data).1).length = 1) ∧
      (∀ (g : Option (ℚ × ℚ)) (w dyn mlw li ri : ℚ), w ≠ 0 → ¬ w > mlw →
        olpInitWidth false g w dyn mlw li ri = w) ∧
      (∀ (g : Option (ℚ × ℚ)) (w dyn mlw li ri : ℚ), w = 0 ∨ w > mlw →
        olpInitWidth false g w dyn mlw li ri = max dyn mlw) := by
  refine ⟨?_, ?_, ?_⟩
  · intro sbg dw lww dyn rs as mi data hdata
    unfold wrapLine
    dsimp only
    rw [wrapLineGo_noflush_acc]
    simp [List.length_eq_zero, hdata]
  · intro g w dyn mlw li ri hw hle
    unfold olpInitWidth
    rw [if_neg (by simp), if_pos hw, if_neg hle]
  · intro g w dyn mlw li ri h
    unfold olpInitWidth
    rw [if_neg (by simp)]
    rcases h with h | h
    · rw [if_neg (by simpa using h)]
    · by_cases hw : w ≠ 0
      · rw [if_pos hw, if_pos h]
      · rw [if_neg hw]

/-- Witness for C1's amended theorem at concrete inputs. -/
theorem wrapLine_nowrap_single_line_witness :
    ((wrapLine false false 100 10 0 0 0 (fun _ => 5) [(["a"], 10)]).1).length = 1 ∧
      olpInitWidth false none 10 0 50 10 10 = 10 ∧
      olpInitWidth false none 0 3 50 10 10 = max 3 50 :=
  ⟨wrapLine_nowrap_single_line.1 false 100 10 0 0 0 (fun _ => 5) [(["a"], 10)]
      (by simp),
    wrapLine_nowrap_single_line.2.1 none 10 0 50 10 10 (by norm_num) (by norm_num),
    wrapLine_nowrap_single_line.2.2 none 0 3 50 10 10 (Or.inl rfl)⟩

/-- C1 counterexample: with `wrap = false`, a width of `10` and a widest
produced line of `50`, `initDimensions` leaves the width at `10` — it is not
grown to at least the widest line's width as the claim states. -/
theorem olpInitWidth_not_grown :
    olpInitWidth false none 10 0 50 10 10 = 10 ∧ ¬ (50 : ℚ) ≤ 10 := by
  constructor
  · norm_num [olpInitWidth]
  · norm_num

theorem enlargeStep_kernedWidth (diff : ℚ) (p : Option String × GBox) (a : ℚ) :
    (enlargeStep diff p a).kernedWidth =
      p.2.kernedWidth + if isSpacePair p then diff else 0 := by
  by_cases hp : isSpacePair p <;> simp [enlargeStep, hp]

theorem enlargeStep_width (diff : ℚ) (p : Option String × GBox) (a : ℚ) :
    (enlargeStep diff p a).width = p.2.width + if isSpacePair p then diff else 0 := by
  by_cases hp : isSpacePair p <;> simp [enlargeStep, hp]

theorem enlargeStep_left (diff : ℚ) (p : Option String × GBox) (a : ℚ) :
    (enlargeStep diff p a).left = p.2.left + a := by
  by_cases hp : isSpacePair p <;> simp [enlargeStep, hp]

theorem enlargeLineGo_length (diff : ℚ) :
    ∀ (pairs : List (Option String × GBox)) (accSpace : ℚ),
      (enlargeLineGo diff pairs accSpace).length = pairs.length := by
  intro pairs
  induction pairs with
  | nil => intro accSpace; rfl
  | cons p rest ih => intro accSpace; simp [enlargeLineGo, ih]

theorem enlargeLineGo_sum (diff : ℚ) :
    ∀ (pairs : List (Option String × GBox)) (accSpace : ℚ),
      ((enlargeLineGo diff pairs accSpace).map (·.kernedWidth)).sum =
        ((pairs.map (·.2)).map (·.kernedWidth)).sum +
          diff * (pairs.countP isSpacePair : ℕ) := by
  intro pairs
  induction pairs with
  | nil => intro accSpace; simp [enlargeLineGo]
  | cons p rest ih =>
      intro accSpace
      simp only [enlargeLineGo, List.map_cons, List.sum_cons, ih,
        enlargeStep_kernedWidth, List.countP_cons]
      by_cases hp : isSpacePair p <;> simp [hp] <;> push_cast <;> ring

theorem enlargeLineGo_getD (diff : ℚ) :
    ∀ (pairs : List (Option String × GBox)) (accSpace : ℚ) (j : ℕ),
      j < pairs.length →
      (enlargeLineGo diff pairs accSpace).getD j default =
        enlargeStep diff (pairs.getD j (none, default))
          (accSpace + diff * ((pairs.take j).countP isSpacePair : ℕ)) := by
  intro pairs
  induction pairs with
  | nil => intro accSpace j h; simp at h
  | cons p rest ih =>
      intro accSpace j h
      cases j with
      | zero => simp [enlargeLineGo]
      | succ j =>
          have hj : j < rest.length := by simpa using Nat.lt_of_succ_lt_succ h
          simp only [enlargeLineGo, List.getD_cons_succ, List.take_succ_cons,
            List.countP_cons]
          rw [ih _ j hj]
          congr 1
          by_cases hp : isSpacePair p <;> simp [hp] <;> push_cast <;> ring

theorem zip_getD {α β : Type} (da : α) (db : β) :
    ∀ (as : List α) (bs : List β) (j : ℕ), j < as.length → j < bs.length →
      (as.zip bs).getD j (da, db) = (as.getD j da, bs.getD j db) := by
  intro as
  induction as with
  | nil => intro bs j h; simp at h
  | cons a as ih =>
      intro bs j ha hb
      cases bs with
      | nil => simp at hb
      | cons b bs =>
          cases j with
          | zero => simp [List.zip_cons_cons]
          | succ j =>
              simp only [List.zip_cons_cons, List.getD_cons_succ]
              exact ih bs j (by simpa using Nat.lt_of_succ_lt_succ ha)
                (by simpa using Nat.lt_of_succ_lt_succ hb)

theorem zip_countP_isSpacePair :
    ∀ (as : List (Option String)) (bs : List GBox), as.length = bs.length →
      (as.zip bs).countP isSpacePair = as.countP isSpaceOpt := by
  intro as
  induction as with
  | nil => intro bs h; simp
  | cons a as ih =>
      intro bs h
      cases bs with
      | nil => simp at h
      | cons b bs =>
          simp only [List.zip_cons_cons, List.countP_cons]
          rw [ih bs (by simpa using h)]
          rfl

theorem zip_take_eq {α β : Type} :
    ∀ (as : List α) (bs : List β) (j : ℕ),
      (as.zip bs).take j = (as.take j).zip (bs.take j) := by
  intro as
  induction as with
  | nil => intro bs j; simp
  | cons a as ih =>
      intro bs j
      cases bs with
      | nil => simp
      | cons b bs =>
          cases j with
          | zero => simp
          | succ j => simp [List.zip_cons_cons, ih]

theorem zip_map_snd_eq {α β : Type} :
    ∀ (as : List α) (bs : List β), as.length = bs.length →
      (as.zip bs).map (·.2) = bs := by
  intro as
  induction as with
  | nil =>
      intro bs h
      cases bs with
      | nil => rfl
      | cons b bs => simp at h
  | cons a as ih =>
      intro bs h
      cases bs with
      | nil => simp at h
      | cons b bs => simp [List.zip_cons_cons, ih bs (by simpa using h)]

theorem mapSome_getD (line : List String) :
    ∀ (j : ℕ), j < line.length →
      (line.map some ++ [none]).getD j none = some (line.getD j "") := by
  induction line with
  | nil => intro j h; simp at h
  | cons g gs ih =>
      intro j h
      cases j with
      | zero => simp
      | succ j =>
          simp only [List.map_cons, List.cons_append, List.getD_cons_succ]
          exact ih j (by simpa using Nat.lt_of_succ_lt_succ h)

theorem mapSome_getD_last (line : List String) :
    (line.map some ++ [none]).getD line.length none = none := by
  induction line with
  | nil => rfl
  | cons g gs ih => simpa using ih

theorem mapSome_take (line : List String) :
    ∀ (j : ℕ), j ≤ line.length →
      (line.map some ++ [none]).take j = (line.take j).map some := by
  induction line with
  | nil =>
      intro j h
      simp only [List.length_nil, Nat.le_zero] at h
      subst h; rfl
  | cons g gs ih =>
      intro j h
      cases j with
      | zero => rfl
      | succ j =>
          simp only [List.map_cons, List.cons_append, List.take_succ_cons]
          rw [ih j (by simpa using h)]

theorem countSpaces_eq_countP (line : List String) :
    countSpaces line = line.countP isSpaceOrTab := by
  unfold countSpaces
  induction line with
  | nil => rfl
  | cons g gs ih =>
      by_cases hg : isSpaceOrTab g <;>
        simp [List.filter_cons, List.countP_cons, hg, ih]

theorem measureLineWidth_zero_spacing (kws : List ℚ) (fontSize : ℚ)
    (h : 0 ≤ kws.sum) : measureLineWidth kws fontSize 0 = kws.sum := by
  unfold measureLineWidth widthOfCharSpacing
  norm_num
  intro hneg
  linarith

/-- C5 (amended): with zero `charSpacing` (so `getLineWidth` returns exactly
the sum `S` of the character boxes' kerned widths, assumed non-negative), a
justified line narrower than the container (`S < W`) that holds at least one
whitespace grapheme is stretched exactly: writing
`diff := (W − S) / countSpaces line`, the sum of all box kerned widths after
`enlargeSpaces` equals `W` (the trailing sentinel box has kerned width `0`),
each box is the `enlargeStep` image of the original — whitespace boxes grow by
exactly `diff` in `width` and `kernedWidth`, every box shifts `left` by `diff`
times the number of whitespace graphemes before it — and a line with no
whitespace is always left unstretched.  (With non-zero `charSpacing`,
`getLineWidth` is `S` minus the char-spacing correction and the stretched
total overshoots `W`; see the counterexample theorem.) -/
theorem enlargeLine_justify (line : List String) (boxes : List GBox)
    (W fontSize : ℚ)
    (hlen : boxes.length = line.length + 1)
    (hsent : (boxes.getD line.length default).kernedWidth = 0)
    (hsum : 0 ≤ ((boxes.take line.length).map (·.kernedWidth)).sum)
    (hlt : ((boxes.take line.length).map (·.kernedWidth)).sum < W)
    (hns : countSpaces line ≠ 0) :
    (((enlargeLine line boxes W fontSize 0).map (·.kernedWidth)).sum = W) ∧
      (∀ j, j < boxes.length →
        (enlargeLine line boxes W fontSize 0).getD j default =
          enlargeStep
            ((W - ((boxes.take line.length).map (·.kernedWidth)).sum) /
              (countSpaces line : ℚ))
            ((line.map some ++ [none]).getD j none, boxes.getD j default)
            ((W - ((boxes.take line.length).map (·.kernedWidth)).sum) /
                (countSpaces line : ℚ) *
              (countSpaces (line.take j) : ℚ))) ∧
      (∀ (line2 : List String) (boxes2 : List GBox) (W2 fs2 cs2 : ℚ),
        countSpaces line2 = 0 → enlargeLine line2 boxes2 W2 fs2 cs2 = boxes2) := by
  set S := ((boxes.take line.length).map (·.kernedWidth)).sum with hS
  set diff := (W - S) / (countSpaces line : ℚ) with hdiff
  have hgs : (line.map some ++ [none]).length = boxes.length := by
    simp [hlen]
  have hout : enlargeLine line boxes W fontSize 0 =
      enlargeLineGo diff ((line.map some ++ [none]).zip boxes) 0 := by
    unfold enlargeLine
    rw [measureLineWidth_zero_spacing _ _ hsum]
    rw [if_pos ⟨hlt, hns⟩]
  have hfun : (isSpaceOpt ∘ some) = isSpaceOrTab := funext fun g => rfl
  refine ⟨?_, ?_, ?_⟩
  · -- total width after stretching
    rw [hout, enlargeLineGo_sum]
    rw [zip_map_snd_eq _ _ hgs]
    rw [zip_countP_isSpacePair _ _ hgs]
    have hcount : (line.map some ++ [none]).countP isSpaceOpt =
        countSpaces line := by
      rw [countSpaces_eq_countP, List.countP_append, List.countP_map, hfun]
      simp [List.countP_cons, isSpaceOpt]
    have hdrop : boxes.drop line.length = [boxes.getD line.length default] := by
      have h1 : (boxes.drop line.length).length = 1 := by
        simp [hlen]
      cases hd : boxes.drop line.length with
      | nil => rw [hd] at h1; simp at h1
      | cons b rest =>
          rw [hd] at h1
          simp only [List.length_cons, Nat.add_right_cancel_iff] at h1
          have hrest : rest = [] := List.length_eq_zero.mp (by omega)
          subst hrest
          have hb : boxes[line.length]? = some b := by
            have h2 := List.getElem?_drop boxes line.length 0
            rw [hd] at h2
            simpa using h2.symm
          rw [List.getD_eq_getElem?_getD, hb]
          rfl
    have hsplit : (boxes.map (·.kernedWidth)).sum = S := by
      conv_lhs => rw [← List.take_append_drop line.length boxes]
      rw [List.map_append, List.sum_append, hdrop]
      simp only [List.map_cons, List.map_nil, List.sum_cons, List.sum_nil, hsent]
      rw [hS]
      ring
    rw [hsplit, hcount, hdiff]
    have hnsQ : (countSpaces line : ℚ) ≠ 0 := Nat.cast_ne_zero.mpr hns
    field_simp
  · -- per-box characterization
    intro j hj
    rw [hout]
    rw [enlargeLineGo_getD _ _ _ j (by rw [List.length_zip, hgs]; simpa [min_self] using hj)]
    rw [zip_getD _ _ _ _ j (by rw [hgs]; exact hj) hj]
    rw [zip_take_eq]
    rw [zip_countP_isSpacePair _ _ (by simp [hgs])]
    have hj2 : j ≤ line.length := by omega
    rw [mapSome_take line j hj2, List.countP_map, hfun]
    rw [countSpaces_eq_countP]
    norm_num
  · -- a line with no whitespace is left unstretched
    intro line2 boxes2 W2 fs2 cs2 h0
    unfold enlargeLine
    rw [if_neg (by simp [h0])]

/-- Witness for C5's amended theorem: the line `"a b"` with unit-width boxes
(each width 10), container width 50 and zero char spacing is stretched to a
total kerned width of exactly 50. -/
theorem enlargeLine_justify_witness :
    countSpaces ["a", " ", "b"] ≠ 0 ∧
      ((enlargeLine ["a", " ", "b"]
            [⟨0, 10, 10, 12, 0⟩, ⟨10, 10, 10, 12, 0⟩, ⟨20, 10, 10, 12, 0⟩,
              ⟨30, 0, 0, 12, 0⟩] 50 10 0).map (·.kernedWidth)).sum = 50 :=
  ⟨by decide,
    (enlargeLine_justify ["a", " ", "b"]
        [⟨0, 10, 10, 12, 0⟩, ⟨10, 10, 10, 12, 0⟩, ⟨20, 10, 10, 12, 0⟩,
          ⟨30, 0, 0, 12, 0⟩] 50 10 rfl rfl (by norm_num) (by norm_num)
        (by decide)).1⟩

/-- C5 counterexample: with non-zero `charSpacing` (font size 10, char
spacing 500, correction 5), the same line has `getLineWidth = 25`, so each
space stretches by `(50 − 25)/1 = 25` and the total kerned width becomes
`55 ≠ 50`: the justified total does not equal the container width as the
claim states. -/
theorem enlargeLine_charSpacing_overshoot :
    ((enlargeLine ["a", " ", "b"]
          [⟨0, 10, 10, 12, 0⟩, ⟨10, 10, 10, 12, 0⟩, ⟨20, 10, 10, 12, 0⟩,
            ⟨30, 0, 0, 12, 0⟩] 50 10 500).map (·.kernedWidth)).sum = 55 ∧
      ¬ ((enlargeLine ["a", " ", "b"]
            [⟨0, 10, 10, 12, 0⟩, ⟨10, 10, 10, 12, 0⟩, ⟨20, 10, 10, 12, 0⟩,
              ⟨30, 0, 0, 12, 0⟩] 50 10 500).map (·.kernedWidth)).sum = 50 := by
  have h : ((enlargeLine ["a", " ", "b"]
        [⟨0, 10, 10, 12, 0⟩, ⟨10, 10, 10, 12, 0⟩, ⟨20, 10, 10, 12, 0⟩,
          ⟨30, 0, 0, 12, 0⟩] 50 10 500).map (·.kernedWidth)).sum = 55 := by
    norm_num [enlargeLine, enlargeLineGo, enlargeStep, measureLineWidth,
      widthOfCharSpacing, countSpaces, isSpacePair, isSpaceOpt,
      List.zip_cons_cons, List.filter_cons,
      show isSpaceOrTab "a" = false from by decide,
      show isSpaceOrTab " " = true from by decide,
      show isSpaceOrTab "b" = false from by decide]
  exact ⟨h, by rw [h]; norm_num⟩

theorem segSpec_pair_eq (c d : ℕ) (rest : List ℕ) (hc : isHighSurrogate c = true) :
    segSpec (c :: d :: rest) = [c, d] :: segSpec rest := by
  rw [segSpec.eq_def]
  simp only [if_pos hc]

theorem segSpec_cons_eq (c : ℕ) (rest : List ℕ) (hc : isHighSurrogate c = false) :
    segSpec (c :: rest) = [c] :: segSpec rest := by
  rw [segSpec.eq_def]
  simp only [hc, Bool.false_eq_true, if_false]

theorem segSpec_join : ∀ (s : List ℕ), wellFormed s = true → (segSpec s).join = s := by
  intro s
  induction s using segSpec.induct with
  | case1 => intro _; rfl
  | case2 c hc =>
      intro hwf
      rw [wellFormed.eq_def] at hwf
      simp [hc] at hwf
  | case3 c hc d rest2 ih =>
      intro hwf
      rw [wellFormed.eq_def] at hwf
      simp only [if_pos hc, Bool.and_eq_true] at hwf
      rw [segSpec.eq_def]
      simp only [if_pos hc, List.join]
      simp [ih hwf.2]
  | case4 c rest hc ih =>
      intro hwf
      rw [wellFormed.eq_def] at hwf
      simp only [if_neg hc, Bool.and_eq_true] at hwf
      rw [segSpec.eq_def]
      simp only [if_neg hc, List.join]
      simp [ih hwf.2]

theorem getWholeChar_regular (str : List ℕ) (i c : ℕ) (hc : str[i]? = some c)
    (h1 : c < 0xd800 ∨ 0xdfff < c) : getWholeChar str i = .ok (some [c]) := by
  unfold getWholeChar
  rw [hc]
  dsimp only
  rw [if_pos h1]

theorem getWholeChar_pair (str : List ℕ) (i c d : ℕ) (hc : str[i]? = some c)
    (hd : str[i + 1]? = some d) (hhc : isHighSurrogate c = true)
    (hld : isLowSurrogate d = true) : getWholeChar str i = .ok (some [c, d]) := by
  simp only [isHighSurrogate, decide_eq_true_eq] at hhc
  simp only [isLowSurrogate, decide_eq_true_eq] at hld
  unfold getWholeChar
  rw [hc]
  dsimp only
  rw [if_neg (by omega), if_pos (by omega), hd]
  dsimp only
  rw [if_neg (by omega)]

theorem getWholeChar_skip (str : List ℕ) (i c d : ℕ) (hi : i ≠ 0)
    (hd : str[i]? = some d) (hc : str[i - 1]? = some c)
    (hld : isLowSurrogate d = true) (hhc : isHighSurrogate c = true) :
    getWholeChar str i = .ok none := by
  simp only [isHighSurrogate, decide_eq_true_eq] at hhc
  simp only [isLowSurrogate, decide_eq_true_eq] at hld
  unfold getWholeChar
  rw [hd]
  dsimp only
  rw [if_neg (by omega), if_neg (by omega), if_neg hi, hc]
  dsimp only
  rw [if_neg (by omega)]

theorem getWholeChar_high_end (str : List ℕ) (i c : ℕ) (hc : str[i]? = some c)
    (hhc : isHighSurrogate c = true) (hend : str[i + 1]? = none) :
    getWholeChar str i = .error "High surrogate without following low surrogate" := by
  simp only [isHighSurrogate, decide_eq_true_eq] at hhc
  unfold getWholeChar
  rw [hc]
  dsimp only
  rw [if_neg (by omega), if_pos (by omega), hend]

theorem getWholeChar_high_bad (str : List ℕ) (i c d : ℕ) (hc : str[i]? = some c)
    (hd : str[i + 1]? = some d) (hhc : isHighSurrogate c = true)
    (hnd : isLowSurrogate d = false) :
    getWholeChar str i = .error "High surrogate without following low surrogate" := by
  simp only [isHighSurrogate, decide_eq_true_eq] at hhc
  simp only [isLowSurrogate, decide_eq_false_iff_not, not_and, not_le] at hnd
  unfold getWholeChar
  rw [hc]
  dsimp only
  rw [if_neg (by omega), if_pos (by omega), hd]
  dsimp only
  rw [if_pos (by omega)]

theorem getWholeChar_low_zero (str : List ℕ) (i c : ℕ) (hi0 : i = 0)
    (hc : str[i]? = some c) (hlc : isLowSurrogate c = true) :
    getWholeChar str i = .error "Low surrogate without preceding high surrogate" := by
  subst hi0
  simp only [isLowSurrogate, decide_eq_true_eq] at hlc
  unfold getWholeChar
  rw [hc]
  dsimp only
  rw [if_neg (by omega), if_neg (by omega), if_pos rfl]

theorem getWholeChar_low_bad (str : List ℕ) (i c prev : ℕ) (hi : i ≠ 0)
    (hc : str[i]? = some c) (hlc : isLowSurrogate c = true)
    (hp : str[i - 1]? = some prev) (hnp : isHighSurrogate prev = false) :
    getWholeChar str i = .error "Low surrogate without preceding high surrogate" := by
  simp only [isLowSurrogate, decide_eq_true_eq] at hlc
  simp only [isHighSurrogate, decide_eq_false_iff_not, not_and, not_le] at hnp
  unfold getWholeChar
  rw [hc]
  dsimp only
  rw [if_neg (by omega), if_neg (by omega), if_neg hi, hp]
  dsimp only
  rw [if_pos (by omega)]

theorem graphemeSplitGo_wellFormed (str : List ℕ) :
    ∀ (k i : ℕ), k = str.length - i → wellFormed (str.drop i) = true →
      graphemeSplitGo str (List.range' i k) = .ok (segSpec (str.drop i)) := by
  intro k
  induction k using Nat.strong_induction_on with
  | _ k ih =>
    intro i hk hwf
    cases k with
    | zero =>
        have hdrop : str.drop i = [] := List.drop_eq_nil_of_le (by omega)
        rw [hdrop]
        rfl
    | succ k1 =>
        have hi : i < str.length := by omega
        have hci : str[i]? = some str[i] := List.getElem?_eq_getElem hi
        have hdropi : str.drop i = str[i] :: str.drop (i + 1) :=
          List.drop_eq_getElem_cons hi
        rw [hdropi] at hwf
        by_cases hhigh : isHighSurrogate str[i]
        · -- a surrogate pair: two positions are consumed
          rw [wellFormed.eq_def] at hwf
          simp only [if_pos hhigh] at hwf
          cases htail : str.drop (i + 1) with
          | nil => rw [htail] at hwf; simp at hwf
          | cons d r2 =>
              rw [htail] at hwf
              simp only [Bool.and_eq_true] at hwf
              have hlen1 : (str.drop (i + 1)).length = str.length - (i + 1) :=
                List.length_drop _ _
              rw [htail] at hlen1
              have hd : str[i + 1]? = some d := by
                have h2 := List.getElem?_drop str (i + 1) 0
                rw [htail] at h2
                simpa using h2.symm
              have hgw := getWholeChar_pair str i str[i] d hci hd hhigh hwf.1
              cases k1 with
              | zero => exfalso; simp at hlen1; omega
              | succ k2 =>
                  have hskip := getWholeChar_skip str (i + 1) str[i] d
                    (by omega) hd (by simpa using hci) hwf.1 hhigh
                  have hr2 : str.drop (i + 2) = r2 := by
                    have h3 := List.drop_drop 1 (i + 1) str
                    rw [htail] at h3
                    simpa using h3.symm
                  have hrec := ih k2 (by omega) (i + 2) (by simp at hlen1; omega)
                    (by rw [hr2]; exact hwf.2)
                  rw [List.range'_succ, List.range'_succ]
                  simp only [graphemeSplitGo, hgw, hskip]
                  rw [hrec, hr2, hdropi, htail, segSpec_pair_eq _ _ _ hhigh]
                  rfl
        · -- a regular (non-surrogate) unit
          rw [wellFormed.eq_def] at hwf
          simp only [if_neg hhigh, Bool.and_eq_true, Bool.not_eq_true'] at hwf
          have hreg : str[i] < 0xd800 ∨ 0xdfff < str[i] := by
            have h5 : ¬ (0xd800 ≤ str[i] ∧ str[i] ≤ 0xdbff) := by
              simpa [isHighSurrogate] using hhigh
            have h6 : ¬ (0xdc00 ≤ str[i] ∧ str[i] ≤ 0xdfff) := by
              simpa [isLowSurrogate] using hwf.1
            omega
          have hgw := getWholeChar_regular str i str[i] hci hreg
          have hrec := ih k1 (by omega) (i + 1) (by omega) hwf.2
          rw [List.range'_succ]
          simp only [graphemeSplitGo, hgw]
          rw [hrec, hdropi, segSpec_cons_eq _ _ (Bool.eq_false_iff.mpr hhigh)]
          rfl

theorem graphemeSplitGo_malformed (str : List ℕ) :
    ∀ (k i : ℕ), k = str.length - i →
      (i = 0 ∨ isHighSurrogate (str.getD (i - 1) 0) = false) →
      wellFormed (str.drop i) = false →
      ∃ e, graphemeSplitGo str (List.range' i k) = .error e := by
  intro k
  induction k using Nat.strong_induction_on with
  | _ k ih =>
    intro i hk hprev hwf
    cases k with
    | zero =>
        exfalso
        rw [List.drop_eq_nil_of_le (by omega)] at hwf
        simp [wellFormed] at hwf
    | succ k1 =>
        have hi : i < str.length := by omega
        have hci : str[i]? = some str[i] := List.getElem?_eq_getElem hi
        have hdropi : str.drop i = str[i] :: str.drop (i + 1) :=
          List.drop_eq_getElem_cons hi
        rw [hdropi] at hwf
        by_cases hhigh : isHighSurrogate str[i]
        · rw [wellFormed.eq_def] at hwf
          simp only [if_pos hhigh] at hwf
          cases htail : str.drop (i + 1) with
          | nil =>
              have hend : str[i + 1]? = none := by
                rw [List.getElem?_eq_none_iff]
                have := List.drop_eq_nil_iff.mp htail
                omega
              have hgw := getWholeChar_high_end str i str[i] hci hhigh hend
              rw [List.range'_succ]
              exact ⟨"High surrogate without following low surrogate",
                by simp [graphemeSplitGo, hgw]⟩
          | cons d r2 =>
              rw [htail] at hwf
              simp only [Bool.and_eq_true] at hwf
              have hlen1 : (str.drop (i + 1)).length = str.length - (i + 1) :=
                List.length_drop _ _
              rw [htail] at hlen1
              have hd : str[i + 1]? = some d := by
                have h2 := List.getElem?_drop str (i + 1) 0
                rw [htail] at h2
                simpa using h2.symm
              by_cases hld : isLowSurrogate d
              · -- valid pair, but the rest is malformed
                have hwf2 : wellFormed r2 = false := by
                  simpa [hld] using hwf
                have hgw := getWholeChar_pair str i str[i] d hci hd hhigh hld
                cases k1 with
                | zero => exfalso; simp at hlen1; omega
                | succ k2 =>
                    have hskip := getWholeChar_skip str (i + 1) str[i] d
                      (by omega) hd (by simpa using hci) hld hhigh
                    have hr2 : str.drop (i + 2) = r2 := by
                      have h3 := List.drop_drop 1 (i + 1) str
                      rw [htail] at h3
                      simpa using h3.symm
                    have hdlow : isHighSurrogate (str.getD (i + 1) 0) = false := by
                      have : str.getD (i + 1) 0 = d := by
                        rw [List.getD_eq_getElem?_getD, hd]; rfl
                      rw [this]
                      simp only [isLowSurrogate, decide_eq_true_eq] at hld
                      simp only [isHighSurrogate, decide_eq_false_iff_not, not_and, not_le]
                      omega
                    obtain ⟨e, he⟩ := ih k2 (by omega) (i + 2) (by simp at hlen1; omega)
                      (Or.inr (by simpa using hdlow)) (by rw [hr2]; exact hwf2)
                    rw [List.range'_succ, List.range'_succ]
                    exact ⟨e, by simp [graphemeSplitGo, hgw, hskip, he, Except.map]⟩
              · -- high surrogate not followed by a low surrogate
                have hgw := getWholeChar_high_bad str i str[i] d hci hd hhigh
                  (Bool.eq_false_iff.mpr hld)
                rw [List.range'_succ]
                exact ⟨"High surrogate without following low surrogate",
                  by simp [graphemeSplitGo, hgw]⟩
        · by_cases hlow : isLowSurrogate str[i]
          · -- unpaired low surrogate (position 0, or preceded by a non-high unit)
            rcases hprev with hzero | hprevlow
            · have hgw := getWholeChar_low_zero str i str[i] hzero hci hlow
              rw [List.range'_succ]
              exact ⟨"Low surrogate without preceding high surrogate",
                by simp [graphemeSplitGo, hgw]⟩
            · by_cases hzero : i = 0
              · have hgw := getWholeChar_low_zero str i str[i] hzero hci hlow
                rw [List.range'_succ]
                exact ⟨"Low surrogate without preceding high surrogate",
                  by simp [graphemeSplitGo, hgw]⟩
              · have hpe : i - 1 < str.length := by omega
                have hp : str[i - 1]? = some (str.getD (i - 1) 0) := by
                  rw [List.getD_eq_getElem?_getD, List.getElem?_eq_getElem hpe]
                  rfl
                have hgw := getWholeChar_low_bad str i str[i] (str.getD (i - 1) 0)
                  hzero hci hlow hp hprevlow
                rw [List.range'_succ]
                exact ⟨"Low surrogate without preceding high surrogate",
                  by simp [graphemeSplitGo, hgw]⟩
          · -- a regular unit whose tail is malformed
            have hlowf : isLowSurrogate str[i] = false := Bool.eq_false_iff.mpr hlow
            have hhighf : isHighSurrogate str[i] = false := Bool.eq_false_iff.mpr hhigh
            rw [wellFormed.eq_def] at hwf
            simp only [if_neg hhigh, hlowf, Bool.not_false, Bool.true_and] at hwf
            have hreg : str[i] < 0xd800 ∨ 0xdfff < str[i] := by
              have h5 : ¬ (0xd800 ≤ str[i] ∧ str[i] ≤ 0xdbff) := by
                simpa [isHighSurrogate] using hhigh
              have h6 : ¬ (0xdc00 ≤ str[i] ∧ str[i] ≤ 0xdfff) := by
                simpa [isLowSurrogate] using hlow
              omega
            have hgw := getWholeChar_regular str i str[i] hci hreg
            have hcur : isHighSurrogate (str.getD i 0) = false := by
              have h4 : str.getD i 0 = str[i] := by
                rw [List.getD_eq_getElem?_getD, hci]; rfl
              rw [h4]
              exact hhighf
            obtain ⟨e, he⟩ := ih k1 (by omega) (i + 1) (by omega)
              (Or.inr (by simpa using hcur)) hwf
            rw [List.range'_succ]
            exact ⟨e, by simp [graphemeSplitGo, hgw, he, Except.map]⟩

/-- C9: the segmenter treats every well-formed high/low surrogate pair as a
single grapheme (`segSpec` groups exactly the pairs), and for well-formed
input it never raises and the concatenation of the returned graphemes equals
the input; it raises a segmentation error exactly when the input is
malformed — an unpaired high surrogate at end-of-string or not followed by a
low surrogate, or an unpaired low surrogate at position 0 or not preceded by
a high surrogate (which is what `wellFormed = false` characterizes). -/
theorem graphemeSplit_segmentation :
    (∀ s : List ℕ, wellFormed s = true →
        graphemeSplit s = .ok (segSpec s) ∧ (segSpec s).join = s) ∧
      (∀ s : List ℕ, wellFormed s = false →
        ∃ e, graphemeSplit s = .error e) ∧
      (∀ (c d : ℕ) (rest : List ℕ), isHighSurrogate c = true →
        isLowSurrogate d = true →
        segSpec (c :: d :: rest) = [c, d] :: segSpec rest) := by
  refine ⟨?_, ?_, ?_⟩
  · intro s hwf
    constructor
    · unfold graphemeSplit
      rw [List.range_eq_range']
      have h := graphemeSplitGo_wellFormed s s.length 0 (by omega)
        (by simpa using hwf)
      simpa using h
    · exact segSpec_join s hwf
  · intro s hwf
    unfold graphemeSplit
    rw [List.range_eq_range']
    exact graphemeSplitGo_malformed s s.length 0 (by omega) (Or.inl rfl)
      (by simpa using hwf)
  · intro c d rest hc _
    exact segSpec_pair_eq c d rest hc

/-- Witness for C9 at concrete inputs: the well-formed string
`U+D800 U+DC00 'a'` splits into the pair-grapheme and `'a'` with the
concatenation restoring the input, and the lone high surrogate errors. -/
theorem graphemeSplit_segmentation_witness :
    (graphemeSplit [0xd800, 0xdc00, 97] = .ok (segSpec [0xd800, 0xdc00, 97]) ∧
        (segSpec [0xd800, 0xdc00, 97]).join = [0xd800, 0xdc00, 97]) ∧
      (∃ e, graphemeSplit [0xd800] = .error e) ∧
      segSpec (0xd800 :: 0xdc00 :: []) = [0xd800, 0xdc00] :: segSpec [] :=
  ⟨graphemeSplit_segmentation.1 [0xd800, 0xdc00, 97] (by decide),
    graphemeSplit_segmentation.2.1 [0xd800] (by decide),
    graphemeSplit_segmentation.2.2 0xd800 0xdc00 [] (by decide) (by decide)⟩

theorem fontDeclaration_measuring (cfs : ℚ) (s : TStyle) :
    fontDeclaration cfs s true = measuringDeclOfKey cfs (fontCacheKey s) := rfl

theorem measureChar_eq_spec (mRef : String → String → ℚ) (cfs : ℚ)
    (ch : String) (charStyle : TStyle) (previousChar : Option String)
    (prevStyle : TStyle) (c : FCache)
    (hwf : cacheWF mRef cfs c)
    (hclosure1 : ∀ w, c (fontCacheKey charStyle) (previousChar.getD "" ++ ch) = some w →
      (c (fontCacheKey charStyle) (previousChar.getD "")).isSome)
    (hclosure2 : ∀ w, c (fontCacheKey charStyle) (previousChar.getD "" ++ ch) = some w →
      (c (fontCacheKey charStyle) ch).isSome) :
    (measureChar mRef cfs ch charStyle previousChar prevStyle c).1 =
      ((measureCharSpec mRef cfs ch charStyle previousChar prevStyle).1,
        some (measureCharSpec mRef cfs ch charStyle previousChar prevStyle).2) := by
  unfold measureChar measureCharSpec
  by_cases hsae : ((previousChar.getD "" != "") &&
      (fontDeclaration cfs charStyle false == fontDeclaration cfs prevStyle false)) = true
  · -- kerning context: equal font declarations
    have hpC : ¬ previousChar.getD "" = "" := by
      have h9 := hsae
      rw [Bool.and_eq_true] at h9
      simpa using h9.1
    simp only [hsae, if_true]
    cases hco : c (fontCacheKey charStyle) (previousChar.getD "" ++ ch) with
    | some cw =>
        have hpw := hclosure1 cw hco
        have hch := hclosure2 cw hco
        cases hpc : c (fontCacheKey charStyle) (previousChar.getD "") with
        | none => rw [hpc] at hpw; simp at hpw
        | some pw =>
            cases hc : c (fontCacheKey charStyle) ch with
            | none => rw [hc] at hch; simp at hch
            | some w =>
                have hw := hwf _ _ _ hc
                have hpwv := hwf _ _ _ hpc
                have hcwv := hwf _ _ _ hco
                simp [hco, hpc, hc, hw, hpwv, hcwv, hpC, fontDeclaration_measuring,
                  Option.map]
    | none =>
        cases hpc : c (fontCacheKey charStyle) (previousChar.getD "") with
        | some pw =>
            have hpwv := hwf _ _ _ hpc
            cases hc : c (fontCacheKey charStyle) ch with
            | some w =>
                have hw := hwf _ _ _ hc
                simp [hco, hpc, hc, hw, hpwv, hpC, fontDeclaration_measuring,
                  Option.map]
            | none =>
                simp [hco, hpc, hc, hpwv, hpC, fontDeclaration_measuring, Option.map]
        | none =>
            cases hc : c (fontCacheKey charStyle) ch with
            | some w =>
                have hw := hwf _ _ _ hc
                simp [hco, hpc, hc, hw, hpC, fontDeclaration_measuring, Option.map]
            | none =>
                simp [hco, hpc, hc, hpC, fontDeclaration_measuring, Option.map]
  · -- no kerning context
    simp only [hsae]
    cases hc : c (fontCacheKey charStyle) ch with
    | some w =>
        have hw := hwf _ _ _ hc
        simp [hsae, hc, hw, fontDeclaration_measuring, Option.map]
    | none =>
        simp [hsae, hc, fontDeclaration_measuring, Option.map]

/-- C4: for every grapheme and style, and any cache the program can have
built (well-formed, with the couple-closure write pattern), `_measureChar`
returns `width` equal to the reference-size measurement scaled by
`fontSize / CACHE_FONT_SIZE`, and `kernedWidth` by kerning inference: with a
(non-empty) previous grapheme whose resolved font declaration equals the
current one, `kernedWidth = (coupleWidth − previousWidth) · scale`; otherwise
`kernedWidth = width`. -/
theorem measureChar_width_and_kerning (mRef : String → String → ℚ) (cfs : ℚ)
    (ch : String) (charStyle : TStyle) (previousChar : Option String)
    (prevStyle : TStyle) (c : FCache)
    (hwf : cacheWF mRef cfs c)
    (hclosure1 : ∀ w, c (fontCacheKey charStyle) (previousChar.getD "" ++ ch) = some w →
      (c (fontCacheKey charStyle) (previousChar.getD "")).isSome)
    (hclosure2 : ∀ w, c (fontCacheKey charStyle) (previousChar.getD "" ++ ch) = some w →
      (c (fontCacheKey charStyle) ch).isSome) :
    (measureChar mRef cfs ch charStyle previousChar prevStyle c).1.1 =
        mRef (fontDeclaration cfs charStyle true) ch * (charStyle.fontSize / cfs) ∧
      (∀ p : String, previousChar = some p → p ≠ "" →
        fontDeclaration cfs charStyle false = fontDeclaration cfs prevStyle false →
        (measureChar mRef cfs ch charStyle previousChar prevStyle c).1.2 =
          some ((mRef (fontDeclaration cfs charStyle true) (p ++ ch) -
              mRef (fontDeclaration cfs charStyle true) p) *
            (charStyle.fontSize / cfs))) ∧
      ((previousChar = none ∨ previousChar = some "" ∨
          fontDeclaration cfs charStyle false ≠ fontDeclaration cfs prevStyle false) →
        (measureChar mRef cfs ch charStyle previousChar prevStyle c).1.2 =
          some (mRef (fontDeclaration cfs charStyle true) ch *
            (charStyle.fontSize / cfs))) := by
  have h := measureChar_eq_spec mRef cfs ch charStyle previousChar prevStyle c
    hwf hclosure1 hclosure2
  refine ⟨?_, ?_, ?_⟩
  · rw [h]
    rfl
  · intro p hp hpne hdeq
    subst hp
    rw [h]
    simp [measureCharSpec, hpne, hdeq]
  · intro hdisj
    rw [h]
    rcases hdisj with h1 | h1 | h1
    · subst h1; simp [measureCharSpec]
    · subst h1; simp [measureCharSpec]
    · simp [measureCharSpec, h1]

/-- Witness for C4 at concrete inputs: measuring `"b"` after `"a"` in the
same style with a fresh (empty, trivially well-formed) cache, with the
measurement primitive returning the string length. -/
theorem measureChar_width_and_kerning_witness :
    (measureChar (fun _ s => (s.length : ℚ)) 400 "b"
          ⟨"arial", "normal", "normal", 40, 0⟩ (some "a")
          ⟨"arial", "normal", "normal", 40, 0⟩ (fun _ _ => none)).1.1 =
        (("b".length : ℚ)) * (40 / 400) ∧
      (measureChar (fun _ s => (s.length : ℚ)) 400 "b"
          ⟨"arial", "normal", "normal", 40, 0⟩ (some "a")
          ⟨"arial", "normal", "normal", 40, 0⟩ (fun _ _ => none)).1.2 =
        some (((("a" ++ "b").length : ℚ) - (("a".length : ℚ))) * (40 / 400)) := by
  have h := measureChar_width_and_kerning (fun _ s => (s.length : ℚ)) 400 "b"
    ⟨"arial", "normal", "normal", 40, 0⟩ (some "a")
    ⟨"arial", "normal", "normal", 40, 0⟩ (fun _ _ => none)
    (fun k s w hw => Option.noConfusion hw)
    (fun w hw => Option.noConfusion hw)
    (fun w hw => Option.noConfusion hw)
  exact ⟨h.1, h.2.1 "a" rfl (by decide) rfl⟩

theorem charBoxAt_width (mRef : String → String → ℚ) (cfs : ℚ)
    (styles : ℕ → TStyle) (fontSize charSpacing : ℚ) (line : List String)
    (i : ℕ) :
    (charBoxAt mRef cfs styles fontSize charSpacing line i).width =
      (infoAt mRef cfs styles line i).1 + widthOfCharSpacing fontSize charSpacing := by
  cases i <;> simp [charBoxAt, getGraphemeBox, infoAt]

theorem charBoxAt_kerned (mRef : String → String → ℚ) (cfs : ℚ)
    (styles : ℕ → TStyle) (fontSize charSpacing : ℚ) (line : List String)
    (i : ℕ) :
    (charBoxAt mRef cfs styles fontSize charSpacing line i).kernedWidth =
      (infoAt mRef cfs styles line i).2 + widthOfCharSpacing fontSize charSpacing := by
  cases i <;> simp [charBoxAt, getGraphemeBox, infoAt]

theorem charBoxAt_left_succ (mRef : String → String → ℚ) (cfs : ℚ)
    (styles : ℕ → TStyle) (fontSize charSpacing : ℚ) (line : List String)
    (i : ℕ) :
    (charBoxAt mRef cfs styles fontSize charSpacing line (i + 1)).left =
      (charBoxAt mRef cfs styles fontSize charSpacing line i).left +
        (charBoxAt mRef cfs styles fontSize charSpacing line i).width +
        ((infoAt mRef cfs styles line (i + 1)).2 -
          (infoAt mRef cfs styles line (i + 1)).1) := by
  simp only [charBoxAt, getGraphemeBox, infoAt, Nat.add_sub_cancel,
    Nat.add_sub_cancel_left]
  split
  · ring
  · simp_all

theorem lineBoxes_length (mRef : String → String → ℚ) (cfs : ℚ)
    (styles : ℕ → TStyle) (fontSize charSpacing : ℚ) (line : List String) :
    (lineBoxes mRef cfs styles fontSize charSpacing line).length =
      line.length + 1 := by
  simp [lineBoxes]

theorem lineBoxes_getD_char (mRef : String → String → ℚ) (cfs : ℚ)
    (styles : ℕ → TStyle) (fontSize charSpacing : ℚ) (line : List String)
    (i : ℕ) (h : i < line.length) :
    (lineBoxes mRef cfs styles fontSize charSpacing line).getD i default =
      charBoxAt mRef cfs styles fontSize charSpacing line i := by
  unfold lineBoxes
  rw [List.getD_append _ _ _ _ (by simpa using h)]
  rw [List.getD_eq_getElem?_getD, List.getElem?_map, List.getElem?_range h]
  rfl

theorem lineBoxes_getD_sentinel (mRef : String → String → ℚ) (cfs : ℚ)
    (styles : ℕ → TStyle) (fontSize charSpacing : ℚ) (line : List String)
    (i : ℕ) (hn : 0 < line.length) (h : i + 1 = line.length) :
    (lineBoxes mRef cfs styles fontSize charSpacing line).getD line.length default =
      { left := (charBoxAt mRef cfs styles fontSize charSpacing line i).left +
            (charBoxAt mRef cfs styles fontSize charSpacing line i).width,
          width := 0, kernedWidth := 0, height := fontSize, deltaY := 0 } := by
  unfold lineBoxes
  rw [List.getD_append_right _ _ _ _ (by simpa using le_refl line.length)]
  simp only [List.length_map, List.length_range, Nat.sub_self, List.getD_cons_zero]
  rw [← h]

/-- The core step bound: with non-negative char spacing, a non-negative
measurement primitive that never measures a couple below its trailing
grapheme, non-negative font multipliers, and measuring declarations
determined by the rendering declarations, consecutive box lefts cannot
decrease. -/
theorem charBoxAt_step_nonneg (mRef : String → String → ℚ) (cfs : ℚ)
    (styles : ℕ → TStyle) (fontSize charSpacing : ℚ) (line : List String)
    (hcs : 0 ≤ widthOfCharSpacing fontSize charSpacing)
    (hmeas : ∀ d s, 0 ≤ mRef d s)
    (hcouple : ∀ (d : String) (a b : String), mRef d b ≤ mRef d (a ++ b))
    (hdecl : ∀ i : ℕ,
      fontDeclaration cfs (styles (i + 1)) false = fontDeclaration cfs (styles i) false →
      fontDeclaration cfs (styles (i + 1)) true = fontDeclaration cfs (styles i) true ∧
        (styles (i + 1)).fontSize = (styles i).fontSize)
    (hmult : ∀ i : ℕ, 0 ≤ (styles i).fontSize / cfs) (i : ℕ) :
    0 ≤ (charBoxAt mRef cfs styles fontSize charSpacing line i).width +
      ((infoAt mRef cfs styles line (i + 1)).2 -
        (infoAt mRef cfs styles line (i + 1)).1) := by
  have hwidth : (infoAt mRef cfs styles line i).1 =
      mRef (fontDeclaration cfs (styles i) true) (line.getD i "") *
        ((styles i).fontSize / cfs) := by
    cases i <;> simp [infoAt, measureCharSpec]
  rw [charBoxAt_width, hwidth]
  have hA := hmeas (fontDeclaration cfs (styles i) true) (line.getD i "")
  have hmi := hmult i
  by_cases hsae : (((some (line.getD i "")).getD "" != "") &&
      (fontDeclaration cfs (styles (i + 1)) false ==
        fontDeclaration cfs (styles i) false)) = true
  · -- kerning applies between boxes i and i+1
    have h9 := hsae
    rw [Bool.and_eq_true] at h9
    have hdeq : fontDeclaration cfs (styles (i + 1)) false =
        fontDeclaration cfs (styles i) false := by
      have h10 := h9.2
      simpa using h10
    obtain ⟨hmd, hfs⟩ := hdecl i hdeq
    simp only [infoAt, measureCharSpec]
    rw [if_pos hsae]
    simp only [Option.getD_some]
    rw [hmd, hfs]
    have hb : mRef (fontDeclaration cfs (styles i) true) (line.getD (i + 1) "") ≤
        mRef (fontDeclaration cfs (styles i) true)
          (line.getD i "" ++ line.getD (i + 1) "") :=
      hcouple _ _ _
    nlinarith [mul_nonneg (sub_nonneg.mpr hb) hmi, mul_nonneg hA hmi]
  · -- no kerning: kernedWidth equals width, the delta is zero
    simp only [infoAt, measureCharSpec]
    rw [if_neg hsae]
    have h11 := mul_nonneg hA hmi
    linarith

theorem infoAt_fst (mRef : String → String → ℚ) (cfs : ℚ)
    (styles : ℕ → TStyle) (line : List String) (i : ℕ) :
    (infoAt mRef cfs styles line i).1 =
      mRef (fontDeclaration cfs (styles i) true) (line.getD i "") *
        ((styles i).fontSize / cfs) := by
  cases i <;> simp [infoAt, measureCharSpec]

/-- C6 (amended): within one line's `__charBounds` row the recurrence
`box[i+1].left = box[i].left + box[i].width + (kernedWidth − width)` of
character `i+1` holds unconditionally (the sentinel's kerned delta being 0),
and the lefts are monotonically non-decreasing provided the char-spacing
correction is non-negative, the host measurement is non-negative, a measured
couple is never narrower than its trailing grapheme, equal rendering font
declarations give equal measuring declarations and font sizes, and the font
multipliers `fontSize / CACHE_FONT_SIZE` are non-negative.  (A negative
`charSpacing` breaks monotonicity; see the counterexample theorem.) -/
theorem lineBoxes_left_monotone (mRef : String → String → ℚ) (cfs : ℚ)
    (styles : ℕ → TStyle) (fontSize charSpacing : ℚ) (line : List String)
    (hcs : 0 ≤ widthOfCharSpacing fontSize charSpacing)
    (hmeas : ∀ d s, 0 ≤ mRef d s)
    (hcouple : ∀ (d : String) (a b : String), mRef d b ≤ mRef d (a ++ b))
    (hdecl : ∀ i : ℕ,
      fontDeclaration cfs (styles (i + 1)) false = fontDeclaration cfs (styles i) false →
      fontDeclaration cfs (styles (i + 1)) true = fontDeclaration cfs (styles i) true ∧
        (styles (i + 1)).fontSize = (styles i).fontSize)
    (hmult : ∀ i : ℕ, 0 ≤ (styles i).fontSize / cfs) :
    (∀ i : ℕ, i + 1 < (lineBoxes mRef cfs styles fontSize charSpacing line).length →
        ((lineBoxes mRef cfs styles fontSize charSpacing line).getD i default).left ≤
          ((lineBoxes mRef cfs styles fontSize charSpacing line).getD (i + 1) default).left) ∧
      (∀ i : ℕ, i + 1 < (lineBoxes mRef cfs styles fontSize charSpacing line).length →
        ((lineBoxes mRef cfs styles fontSize charSpacing line).getD (i + 1) default).left =
          ((lineBoxes mRef cfs styles fontSize charSpacing line).getD i default).left +
            ((lineBoxes mRef cfs styles fontSize charSpacing line).getD i default).width +
            (((lineBoxes mRef cfs styles fontSize charSpacing line).getD (i + 1) default).kernedWidth -
              ((lineBoxes mRef cfs styles fontSize charSpacing line).getD (i + 1) default).width)) := by
  have hlen := lineBoxes_length mRef cfs styles fontSize charSpacing line
  have hgetc := lineBoxes_getD_char mRef cfs styles fontSize charSpacing line
  have hrec : ∀ i : ℕ, i + 1 < line.length + 1 →
      ((lineBoxes mRef cfs styles fontSize charSpacing line).getD (i + 1) default).left =
        ((lineBoxes mRef cfs styles fontSize charSpacing line).getD i default).left +
          ((lineBoxes mRef cfs styles fontSize charSpacing line).getD i default).width +
          (((lineBoxes mRef cfs styles fontSize charSpacing line).getD (i + 1) default).kernedWidth -
            ((lineBoxes mRef cfs styles fontSize charSpacing line).getD (i + 1) default).width) := by
    intro i hi
    by_cases hi2 : i + 1 < line.length
    · rw [hgetc i (by omega), hgetc (i + 1) hi2]
      rw [charBoxAt_left_succ, charBoxAt_kerned,
        charBoxAt_width mRef cfs styles fontSize charSpacing line (i + 1),
        charBoxAt_width mRef cfs styles fontSize charSpacing line i]
      ring
    · have hieq : i + 1 = line.length := by omega
      have hsent := lineBoxes_getD_sentinel mRef cfs styles fontSize charSpacing
        line i (by omega) hieq
      rw [hieq, hsent, hgetc i (by omega)]
      ring
  have hmono : ∀ i : ℕ, i + 1 < line.length + 1 →
      ((lineBoxes mRef cfs styles fontSize charSpacing line).getD i default).left ≤
        ((lineBoxes mRef cfs styles fontSize charSpacing line).getD (i + 1) default).left := by
    intro i hi
    rw [hrec i hi]
    by_cases hi2 : i + 1 < line.length
    · have hstep := charBoxAt_step_nonneg mRef cfs styles fontSize charSpacing
        line hcs hmeas hcouple hdecl hmult i
      rw [hgetc i (by omega), hgetc (i + 1) hi2, charBoxAt_width,
        charBoxAt_kerned, charBoxAt_width]
      rw [charBoxAt_width] at hstep
      linarith
    · have hieq : i + 1 = line.length := by omega
      have hsent := lineBoxes_getD_sentinel mRef cfs styles fontSize charSpacing
        line i (by omega) hieq
      rw [hieq, hsent, hgetc i (by omega), charBoxAt_width, infoAt_fst]
      have h1 := mul_nonneg
        (hmeas (fontDeclaration cfs (styles i) true) (line.getD i "")) (hmult i)
      linarith
  rw [hlen]
  exact ⟨hmono, hrec⟩

/-- Witness for C6's amended theorem: the line `["a", "b"]` in one style
(font size 10, reference size 10, zero char spacing) with a length-based
measurement primitive has non-decreasing lefts. -/
theorem lineBoxes_left_monotone_witness :
    ((lineBoxes (fun _ s => (s.length : ℚ)) 10 (fun _ => ⟨"f", "n", "n", 10, 0⟩)
          10 0 ["a", "b"]).getD 0 default).left ≤
      ((lineBoxes (fun _ s => (s.length : ℚ)) 10 (fun _ => ⟨"f", "n", "n", 10, 0⟩)
          10 0 ["a", "b"]).getD 1 default).left :=
  (lineBoxes_left_monotone (fun _ s => (s.length : ℚ)) 10
      (fun _ => ⟨"f", "n", "n", 10, 0⟩) 10 0 ["a", "b"]
      (by norm_num [widthOfCharSpacing])
      (fun d s => by positivity)
      (fun d a b => by
        show ((b.length : ℚ)) ≤ (((a ++ b).length : ℚ))
        rw [String.length_append]
        push_cast
        linarith [Nat.cast_nonneg (α := ℚ) a.length])
      (fun i _ => ⟨rfl, rfl⟩)
      (fun i => by norm_num)).1 0
    (by rw [lineBoxes_length]; norm_num)

/-- C6 counterexample: with a negative `charSpacing` (font size 10, char
spacing −2000, correction −20) the second box's left is `−19 < 0 = ` the
first box's left: lefts are not monotonically non-decreasing as the claim
states. -/
theorem lineBoxes_left_decreasing :
    ¬ (((lineBoxes (fun _ s => (s.length : ℚ)) 10 (fun _ => ⟨"f", "n", "n", 10, 0⟩)
            10 (-2000) ["a", "b"]).getD 0 default).left ≤
        ((lineBoxes (fun _ s => (s.length : ℚ)) 10 (fun _ => ⟨"f", "n", "n", 10, 0⟩)
            10 (-2000) ["a", "b"]).getD 1 default).left) := by
  rw [lineBoxes_getD_char _ _ _ _ _ _ 0 (by norm_num),
    lineBoxes_getD_char _ _ _ _ _ _ 1 (by norm_num),
    charBoxAt_left_succ]
  rw [charBoxAt_width]
  norm_num [infoAt, measureCharSpec, widthOfCharSpacing,
    show ((["a", "b"] : List String).getD 0 "") = "a" from rfl,
    show ((["a", "b"] : List String).getD 1 "") = "b" from rfl,
    show (("a" : String) != "") = true from by decide,
    beq_self_eq_true,
    show ("a" : String).length = 1 from rfl,
    show ("b" : String).length = 1 from rfl,
    show ("a" ++ "b" : String).length = 2 from rfl]

end TextEngine
